import Mathlib

/-!
Verification of the core logic of the platform-wheels repository.

Python strings are modelled as `List Char` (Python strings compare and
slice by code points, matching `Char` lists).  Python's fallible returns
become `Option`; `sys.exit(1)` paths become `Except` errors.

Sources embedded here:
  * `generate_index.py`: `get_package_name_from_wheel`,
    `rename_wheel_for_alias`, `generate_package_index` (link generation),
    and the alias handling of `main`.
  * `read_packages.py`: `topological_sort` and the configuration-source
    precedence of `main`.
-/

set_option maxHeartbeats 1000000

namespace PlatformWheels

/-- Python strings, modelled as lists of characters. -/
abbrev PyStr := List Char

/-- The archive extension string `".whl"`. -/
def wext : PyStr := ['.', 'w', 'h', 'l']

/-- `leadsWith pat s` holds when `pat` occurs at the start of `s`
(the check Python's `str.replace` scanner performs at each position). -/
def leadsWith : PyStr → PyStr → Bool
  | [], _ => true
  | _ :: _, [] => false
  | p :: ps, s :: ss => p == s && leadsWith ps ss

/-- `containsSub pat s` holds when `pat` occurs somewhere inside `s`
(Python's `pat in s`). -/
def containsSub (pat : PyStr) : PyStr → Bool
  | [] => leadsWith pat []
  | a :: rest => leadsWith pat (a :: rest) || containsSub pat rest

/-- Python's `wheel_filename.replace('.whl', '')`: delete every
(left-to-right, non-overlapping) occurrence of the constant pattern
`".whl"` anywhere in the string, not just a trailing extension.  This
is the extension stripping used by both `get_package_name_from_wheel`
and `rename_wheel_for_alias`. -/
def removeWhl : PyStr → PyStr
  | '.' :: 'w' :: 'h' :: 'l' :: rest => removeWhl rest
  | a :: rest => a :: removeWhl rest
  | [] => []

/-- Python's `s.split(sep)` for a single-character separator: always
returns at least one piece; `''.split('-') == ['']`. -/
def splitOnChar (c : Char) : PyStr → List PyStr
  | [] => [[]]
  | a :: rest =>
    match splitOnChar c rest with
    | [] => [[a]]
    | h :: t => if a = c then [] :: h :: t else (a :: h) :: t

/-- Python's `sep.join(pieces)` for a single-character separator. -/
def joinSep (c : Char) : List PyStr → PyStr
  | [] => []
  | [p] => p
  | p :: q :: ps => p ++ c :: joinSep c (q :: ps)

/-- Python's `s.replace(old, new)` for single characters. -/
def replaceChar (old new : Char) (s : PyStr) : PyStr :=
  s.map fun x => if x = old then new else x

/-- Python's `s.lower()` (the names involved are ASCII, where
`Char.toLower` agrees with Python). -/
def toLowerStr (s : PyStr) : PyStr := s.map Char.toLower

/-- The test `part and part[0].isdigit()` from the version-segment scan
of `get_package_name_from_wheel` (ASCII digits). -/
def isVersionPart : PyStr → Bool
  | [] => false
  | c :: _ => c.isDigit

/-- The `for i, part in enumerate(parts)` scan of
`get_package_name_from_wheel`: index of the first segment that is
nonempty and starts with a digit. -/
def findVersionIdx : List PyStr → Option Nat
  | [] => none
  | p :: ps => if isVersionPart p then some 0 else (findVersionIdx ps).map (· + 1)

/-- `generate_index.get_package_name_from_wheel`: strip every occurrence
of `".whl"`, split on `'-'`, and join everything before the first
digit-leading segment, normalising `'_'` to `'-'`; fall back to the
first segment when no digit-leading segment exists; `None` only when
the split produced no parts at all. -/
def get_package_name_from_wheel (wheel_filename : PyStr) : Option PyStr :=
  let name_without_ext := removeWhl wheel_filename
  let parts := splitOnChar '-' name_without_ext
  match findVersionIdx parts with
  | some i => some (replaceChar '_' '-' (joinSep '-' (parts.take i)))
  | none =>
    match parts with
    | [] => none
    | p :: _ => some (replaceChar '_' '-' p)

/-- The scanning loop of `generate_index.rename_wheel_for_alias`:
`pre` holds `parts[:i]`; on a digit-leading segment whose joined,
normalised preceding parts match `old_name` case-insensitively, the
name is replaced (keeping underscore style) and the extension
re-appended; otherwise the scan continues. -/
def renameScan (old_name new_name : PyStr) (pre : List PyStr) : List PyStr → Option PyStr
  | [] => none
  | p :: ps =>
    if isVersionPart p then
      let joined := joinSep '-' pre
      let old_package_name := replaceChar '_' '-' joined
      if toLowerStr old_package_name = toLowerStr old_name then
        let new_package_name := if '_' ∈ joined then replaceChar '-' '_' new_name else new_name
        some (joinSep '-' (new_package_name :: p :: ps) ++ wext)
      else renameScan old_name new_name (pre ++ [p]) ps
    else renameScan old_name new_name (pre ++ [p]) ps

/-- `generate_index.rename_wheel_for_alias`: rewrite the package-name
part of a wheel filename for an alias listing, returning the filename
unchanged when the scan finds no matching boundary. -/
def rename_wheel_for_alias (wheel_filename old_name new_name : PyStr) : PyStr :=
  match renameScan old_name new_name [] (splitOnChar '-' (removeWhl wheel_filename)) with
  | some r => r
  | none => wheel_filename

/-- Modelled from the claim's words (for comparison with the source's
global deletion): strip one occurrence of `".whl"` from the end of the
filename only. -/
def stripExtTrailingOnly (s : PyStr) : PyStr :=
  if leadsWith wext.reverse s.reverse then (s.reverse.drop wext.length).reverse else s

/-- Modelled from the claim's words: the identity parser as it would
behave if extension stripping removed only the trailing `".whl"`. -/
def identityWithTrailingStripOnly (wheel_filename : PyStr) : Option PyStr :=
  let name_without_ext := stripExtTrailingOnly wheel_filename
  let parts := splitOnChar '-' name_without_ext
  match findVersionIdx parts with
  | some i => some (replaceChar '_' '-' (joinSep '-' (parts.take i)))
  | none =>
    match parts with
    | [] => none
    | p :: _ => some (replaceChar '_' '-' p)

/-! ### Lexicographic string comparison (Python `list.sort` on names)

Python compares strings lexicographically by code point.  `list.sort`
produces the unique sorted arrangement of the multiset of values (equal
strings are indistinguishable), so any sorting algorithm models it; we
use `List.insertionSort` over this order. -/

/-- Lexicographic comparison of character lists by code point. -/
def lexLe : List Char → List Char → Bool
  | [], _ => true
  | _ :: _, [] => false
  | a :: as, b :: bs => if a = b then lexLe as bs else decide (a < b)

/-- Python's `<=` on strings. -/
def pyStrLe (a b : String) : Bool := lexLe a.data b.data

/-- Python's `<=` on strings, as a relation. -/
def pyStrLeR (a b : String) : Prop := pyStrLe a b = true

instance : DecidableRel pyStrLeR := fun a b =>
  inferInstanceAs (Decidable (pyStrLe a b = true))

/-- The sorting step `queue.sort()` of `topological_sort`. -/
def sortQueue (q : List String) : List String := List.insertionSort pyStrLeR q

/-! ### `read_packages.topological_sort`

A Python package record carries `name`, `build_dependencies` and
further metadata fields (`spec`, `alias`, `source`, patches,
environment, …) that `topological_sort` never reads and passes through
unchanged; we embed the two fields the algorithm consumes. -/

deriving instance DecidableEq for Except

/-- A build-plan entry as consumed by `read_packages.topological_sort`. -/
structure PackageRecord where
  name : String
  build_dependencies : List String
deriving DecidableEq, Repr

/-- The names of the records, in input order (`pkg['name']`). -/
def recordNames (records : List PackageRecord) : List String :=
  records.map PackageRecord.name

/-- The dependency edges `(dep, pkg['name'])` recorded by the loop
`for pkg in packages_data: for dep in pkg['build_dependencies']`, in
its traversal order.  An edge is recorded only when `dep in pkg_map`,
i.e. when the dependency names a known record; each recorded edge both
appends `pkg['name']` to `graph[dep]` and increments
`in_degree[pkg['name']]`. -/
def edges (records : List PackageRecord) : List (String × String) :=
  records.flatMap fun p =>
    (p.build_dependencies.filter fun d => decide (d ∈ recordNames records)).map
      fun d => (d, p.name)

/-- The warnings printed for dependencies naming no known record
(`Warning: Package {pkg} depends on {dep} which is not in the package
list`), as `(pkg['name'], dep)` pairs in emission order. -/
def missingDepWarnings (records : List PackageRecord) : List (String × String) :=
  records.flatMap fun p =>
    (p.build_dependencies.filter fun d => !decide (d ∈ recordNames records)).map
      fun d => (p.name, d)

/-- `graph[d]`: the dependents appended for source `d`, in append order. -/
def graphFn (records : List PackageRecord) (d : String) : List String :=
  ((edges records).filter fun e => e.1 == d).map Prod.snd

/-- `in_degree[n]` as initialised before the Kahn loop.  Python
integers may go negative during relaxation, hence `Int`. -/
def initInDegree (records : List PackageRecord) (n : String) : Int :=
  ((edges records).filter fun e => e.2 == n).length

/-- Key insertion into a Python `dict`: a fresh key goes to the back,
an existing key keeps its position. -/
def insertKey (ks : List String) (k : String) : List String :=
  if k ∈ ks then ks else ks ++ [k]

/-- The key order of the dicts `pkg_map` / `graph` / `in_degree`
(first-occurrence order of the record names). -/
def dictKeys (records : List PackageRecord) : List String :=
  records.foldl (fun ks p => insertKey ks p.name) []

/-- `pkg_map[n]`: dict construction lets a later record with the same
name overwrite an earlier one. -/
def pkgMap (records : List PackageRecord) (n : String) : Option PackageRecord :=
  (records.filter fun p => p.name == n).getLast?

/-- The inner loop `for neighbor in graph[current]`: decrement the
neighbour's in-degree and enqueue it when the degree reaches exactly
zero. -/
def relax (nbs : List String) (queue : List String) (indeg : String → Int) :
    List String × (String → Int) :=
  match nbs with
  | [] => (queue, indeg)
  | nb :: rest =>
    let indeg1 : String → Int := fun n => if n = nb then indeg nb - 1 else indeg n
    let queue1 := if indeg1 nb = 0 then queue ++ [nb] else queue
    relax rest queue1 indeg1

/-- The `while queue:` loop of `topological_sort`: sort the queue, pop
its head, append it to the output, relax its out-edges.  The fuel only
bounds the iteration count; every iteration consumes one queued element
and at most `|initial queue| + |edges|` elements are ever enqueued, so
the fuel passed by `topological_sort` (`|records| + |edges| + 1`) is
never exhausted and the loop always exits on an empty queue, exactly
like the Python `while`. -/
def kahnLoop (g : String → List String) :
    Nat → List String → (String → Int) → List String →
    List String × (String → Int)
  | 0, _, indeg, out => (out, indeg)
  | fuel + 1, queue, indeg, out =>
    match sortQueue queue with
    | [] => (out, indeg)
    | current :: rest =>
      let s := relax (g current) rest indeg
      kahnLoop g fuel s.1 s.2 (out ++ [current])

/-- `read_packages.topological_sort`: Kahn's algorithm with a sorted
ready queue; `sys.exit(1)` on a cycle becomes an `Except.error`
carrying the names reported in the error message (`remaining`, the
dict entries of positive in-degree).  Every popped name is a dict key
of `pkg_map`, so the `filterMap` lookup models Python's
`pkg_map[current]` without a `KeyError` path. -/
def topological_sort (records : List PackageRecord) :
    Except (List String) (List PackageRecord) :=
  let r := kahnLoop (graphFn records)
    (records.length + (edges records).length + 1)
    ((dictKeys records).filter fun n => initInDegree records n == 0)
    (initInDegree records) []
  let sorted_packages := r.1.filterMap (pkgMap records)
  if sorted_packages.length = records.length then .ok sorted_packages
  else .error ((dictKeys records).filter fun n => decide (0 < r.2 n))

/-! ### Verification artifacts for the Kahn loop (not part of the source):
the number of unprocessed-source edges into a node, and the loop
invariant. -/

/-- The number of edges into `n` whose source has not been output yet.
The invariant ties `in_degree[n]` to this count. -/
def unprocCount (records : List PackageRecord) (out : List String) (n : String) : Nat :=
  ((edges records).filter fun e => e.2 == n && !decide (e.1 ∈ out)).length

/-- Invariant of the `while queue:` loop of `topological_sort`:
the output is duplicate-free, consists of record names, is closed under
dependency sources and respects the edges; the queue holds exactly the
unprocessed names of in-degree zero; and `in_degree` counts the edges
from unprocessed sources. -/
def KahnInv (records : List PackageRecord) (queue : List String)
    (indeg : String → Int) (out : List String) : Prop :=
  out.Nodup ∧
  (∀ n ∈ out, n ∈ recordNames records) ∧
  queue.Nodup ∧
  (∀ n ∈ queue, n ∈ recordNames records ∧ n ∉ out) ∧
  (∀ n, indeg n = (unprocCount records out n : Int)) ∧
  (∀ n ∈ recordNames records, n ∉ out → (n ∈ queue ↔ indeg n = 0)) ∧
  (∀ e ∈ edges records, e.2 ∈ out → e.1 ∈ out) ∧
  out.Pairwise (fun a b => (b, a) ∉ edges records) ∧
  (∀ n ∈ out, (n, n) ∉ edges records)

/-! ### `read_packages.main`: configuration-source precedence -/

/-- The configuration environment `read_packages.main` probes: whether
`recipes/` exists and is nonempty and what `read_recipes_dir()` would
return, whether `packages.yaml` exists and what `read_yaml_config`
would return, and the same for `packages.txt`. -/
structure ConfigEnv where
  recipesNonempty : Bool
  recipesData : List PackageRecord
  yamlExists : Bool
  yamlData : List PackageRecord
  txtExists : Bool
  txtData : List PackageRecord
deriving DecidableEq

/-- The source-selection logic of `read_packages.main` (up to the call
to `topological_sort`): recipes first; an existing `packages.yaml`
contributes the entries whose names recipes did not already define
(`existing_names` is computed once, before the merge loop);
`packages.txt` is read only when the merged data is still empty; empty
merged data without a txt fallback is `sys.exit(1)`. -/
def selectPackages (env : ConfigEnv) : Except Unit (List PackageRecord) :=
  let pd1 := if env.recipesNonempty then env.recipesData else []
  let pd2 := if env.yamlExists then
      pd1 ++ env.yamlData.filter fun p => !decide (p.name ∈ recordNames pd1)
    else pd1
  let pd3 := if pd2.isEmpty && env.txtExists then env.txtData else pd2
  if pd3.isEmpty then .error () else .ok pd3

/-! ### `generate_index.generate_package_index` and the alias loop of
`generate_index.main`

File contents never enter the link computation except through
`calculate_hash(wheel_path)`, so the content hash is abstracted as a
function of the wheel path; both the natural and the alias listing hash
the same source path. -/

/-- One `<a href="{display}#sha256={hash}">` link of a package page. -/
structure LinkEntry where
  displayName : PyStr
  contentHash : String
deriving DecidableEq

/-- The link list built by `generate_package_index` for one package
page: hash the source file, rename the displayed filename only when
both `rename_from` and `rename_to` are given (alias pages), and record
the link.  `wheels` holds `(wheel_file, wheel_path)` pairs. -/
def generate_package_index_links (hashFn : String → String)
    (wheels : List (PyStr × String)) (rename_from rename_to : Option PyStr) :
    List LinkEntry :=
  wheels.map fun w =>
    let file_hash := hashFn w.2
    let display_wheel_file :=
      match rename_from, rename_to with
      | some f, some t => rename_wheel_for_alias w.1 f t
      | _, _ => w.1
    ⟨display_wheel_file, file_hash⟩

/-- Python dict assignment `m[k] = v`: overwrite in place or append. -/
def dinsert (m : List (PyStr × PyStr)) (k v : PyStr) : List (PyStr × PyStr) :=
  if (m.lookup k).isSome then m.map fun e => if e.1 = k then (k, v) else e
  else m ++ [(k, v)]

/-- The `package_aliases` dict of `generate_index.main`: for every
metadata entry `(name, alias)` with a truthy alias,
`package_aliases[alias.lower()] = name`. -/
def buildPackageAliases (metadata : List (PyStr × PyStr)) : List (PyStr × PyStr) :=
  (metadata.filter fun pr => !pr.2.isEmpty).foldl
    (fun m pr => dinsert m (toLowerStr pr.2) pr.1) []

/-- The per-package loop of `generate_index.main`: one page under the
wheel's own package name, plus — when `package_aliases` maps the
lowercased name to a truthy configured name differing from it — a
second page under the configured name with renamed wheel filenames. -/
def packageIndexPages (hashFn : String → String)
    (package_aliases : List (PyStr × PyStr))
    (packages : List (PyStr × List (PyStr × String))) :
    List (PyStr × List LinkEntry) :=
  packages.flatMap fun pkg =>
    let natural := (pkg.1, generate_package_index_links hashFn pkg.2 none none)
    match package_aliases.lookup (toLowerStr pkg.1) with
    | some configured =>
      if ¬configured.isEmpty ∧ configured ≠ pkg.1 then
        [natural,
         (configured,
          generate_package_index_links hashFn pkg.2 (some pkg.1) (some configured))]
      else [natural]
    | none => [natural]

/-! ## String lemmas -/

theorem leadsWith_wext_shape (s : PyStr) (h : leadsWith wext s = true) :
    ∃ r, s = '.' :: 'w' :: 'h' :: 'l' :: r := by
  match s with
  | [] => simp [leadsWith, wext] at h
  | [a] => simp [leadsWith, wext] at h
  | [a, b] => simp [leadsWith, wext] at h
  | [a, b, c] => simp [leadsWith, wext] at h
  | a :: b :: c :: d :: r =>
    simp [leadsWith, wext] at h
    obtain ⟨ha, hb, hc, hd⟩ := h
    subst ha; subst hb; subst hc; subst hd
    exact ⟨r, rfl⟩

theorem removeWhl_cons (a : Char) (rest : PyStr) :
    removeWhl (a :: rest) =
      if leadsWith wext (a :: rest) then removeWhl (rest.drop 3)
      else a :: removeWhl rest := by
  rw [removeWhl.eq_def]
  split
  · rename_i r heq
    injection heq with h1 h2
    subst h1; subst h2
    simp [leadsWith, wext]
  · rename_i a2 rest2 hno hne
    injection hne with h1 h2
    subst h1; subst h2
    have hlw : leadsWith wext (a :: rest) = false := by
      by_contra hc
      have hsh := leadsWith_wext_shape (a :: rest)
        (by revert hc; cases leadsWith wext (a :: rest) <;> simp)
      obtain ⟨r, hr⟩ := hsh
      injection hr with g1 g2
      exact hno r g1 g2
    simp [hlw]
  · rename_i heq
    exact (List.cons_ne_nil _ _ heq).elim

theorem leadsWith_wext_append_false (a : Char) (X : PyStr)
    (h : leadsWith wext (a :: X) = false) :
    leadsWith wext ((a :: X) ++ wext) = false := by
  match X with
  | [] => simp [leadsWith, wext]
  | [b] => simp [leadsWith, wext]
  | [b, c] => simp [leadsWith, wext]
  | b :: c :: d :: Y =>
    simp [leadsWith, wext] at h ⊢
    intro ha hb hc hd
    exact h ha hb hc hd

theorem splitOnChar_ne_nil (c : Char) (l : PyStr) : splitOnChar c l ≠ [] := by
  cases l with
  | nil => simp [splitOnChar]
  | cons a rest =>
    simp only [splitOnChar]
    split
    · simp
    · split <;> simp

theorem splitOnChar_cons_of_eq (c : Char) (rest : PyStr) :
    splitOnChar c (c :: rest) = [] :: splitOnChar c rest := by
  simp only [splitOnChar]
  split
  · rename_i heq
    exact (splitOnChar_ne_nil c rest heq).elim
  · rename_i h t heq
    simp [heq]

theorem splitOnChar_cons_of_ne (c a : Char) (rest : PyStr) (hne : a ≠ c)
    (hd : PyStr) (tl : List PyStr) (hs : splitOnChar c rest = hd :: tl) :
    splitOnChar c (a :: rest) = (a :: hd) :: tl := by
  simp only [splitOnChar]
  split
  · rename_i heq
    exact (splitOnChar_ne_nil c rest heq).elim
  · rename_i h t heq
    rw [heq] at hs
    injection hs with g1 g2
    subst g1; subst g2
    simp [hne]

theorem splitOnChar_append (c : Char) (A B : PyStr) :
    splitOnChar c (A ++ c :: B) = splitOnChar c A ++ splitOnChar c B := by
  induction A with
  | nil => rw [List.nil_append, splitOnChar_cons_of_eq]; rfl
  | cons a A ih =>
    by_cases hac : a = c
    · subst hac
      rw [List.cons_append, splitOnChar_cons_of_eq, ih, splitOnChar_cons_of_eq,
        List.cons_append]
    · obtain ⟨hd, tl, hs⟩ := List.exists_cons_of_ne_nil (splitOnChar_ne_nil c A)
      rw [List.cons_append,
        splitOnChar_cons_of_ne c a _ hac (hd) (tl ++ splitOnChar c B)
          (by rw [ih, hs]; rfl),
        splitOnChar_cons_of_ne c a A hac hd tl hs]
      rfl

theorem joinSep_cons_cons (c a : Char) (h : PyStr) (t : List PyStr) :
    joinSep c ((a :: h) :: t) = a :: joinSep c (h :: t) := by
  cases t <;> rfl

theorem joinSep_splitOnChar (c : Char) (l : PyStr) :
    joinSep c (splitOnChar c l) = l := by
  induction l with
  | nil => rfl
  | cons a rest ih =>
    by_cases hac : a = c
    · subst hac
      rw [splitOnChar_cons_of_eq]
      obtain ⟨hd, tl, hs⟩ := List.exists_cons_of_ne_nil (splitOnChar_ne_nil a rest)
      rw [hs] at ih ⊢
      show joinSep a ([] :: hd :: tl) = a :: rest
      rw [← ih]
      rfl
    · obtain ⟨hd, tl, hs⟩ := List.exists_cons_of_ne_nil (splitOnChar_ne_nil c rest)
      rw [splitOnChar_cons_of_ne c a rest hac hd tl hs, joinSep_cons_cons]
      rw [hs] at ih
      rw [ih]

theorem splitOnChar_of_not_mem (c : Char) (l : PyStr) (h : c ∉ l) :
    splitOnChar c l = [l] := by
  induction l with
  | nil => rfl
  | cons a rest ih =>
    have hac : a ≠ c := fun he => h (he ▸ List.mem_cons_self a rest)
    have hr : splitOnChar c rest = [rest] := ih (fun hm => h (List.mem_cons_of_mem a hm))
    rw [splitOnChar_cons_of_ne c a rest hac rest [] hr]

theorem mem_splitOnChar_not_mem (c : Char) (l : PyStr) (p : PyStr)
    (hp : p ∈ splitOnChar c l) : c ∉ p := by
  induction l generalizing p with
  | nil =>
    simp [splitOnChar] at hp
    simp [hp]
  | cons a rest ih =>
    by_cases hac : a = c
    · subst hac
      rw [splitOnChar_cons_of_eq] at hp
      rcases List.mem_cons.mp hp with hp | hp
      · rw [hp]; simp
      · exact ih p hp
    · obtain ⟨hd, tl, hs⟩ := List.exists_cons_of_ne_nil (splitOnChar_ne_nil c rest)
      rw [splitOnChar_cons_of_ne c a rest hac hd tl hs] at hp
      rcases List.mem_cons.mp hp with hp | hp
      · subst hp
        intro hmem
        rcases List.mem_cons.mp hmem with hmem | hmem
        · exact hac hmem.symm
        · exact ih hd (by rw [hs]; exact List.mem_cons_self hd tl) hmem
      · exact ih p (by rw [hs]; exact List.mem_cons_of_mem hd hp)

theorem containsSub_cons_false (pat : PyStr) (a : Char) (rest : PyStr)
    (h : containsSub pat (a :: rest) = false) :
    leadsWith pat (a :: rest) = false ∧ containsSub pat rest = false := by
  simpa [containsSub] using h

theorem removeWhl_of_not_contains (X : PyStr) (h : containsSub wext X = false) :
    removeWhl X = X := by
  induction X with
  | nil => rfl
  | cons a rest ih =>
    obtain ⟨h1, h2⟩ := containsSub_cons_false wext a rest h
    rw [removeWhl_cons, if_neg (by simp [h1]), ih h2]

theorem removeWhl_append_wext (X : PyStr) (h : containsSub wext X = false) :
    removeWhl (X ++ wext) = X := by
  induction X with
  | nil => rfl
  | cons a rest ih =>
    obtain ⟨h1, h2⟩ := containsSub_cons_false wext a rest h
    have hl : leadsWith wext (a :: (rest ++ wext)) = false := by
      have := leadsWith_wext_append_false a rest h1
      rwa [List.cons_append] at this
    rw [List.cons_append, removeWhl_cons, if_neg (by simp [hl]), ih h2]

theorem leadsWith_wext_append_dash (a : Char) (X B : PyStr) :
    leadsWith wext ((a :: X) ++ '-' :: B) = leadsWith wext (a :: X) := by
  match X with
  | [] => simp [leadsWith, wext]
  | [b] => simp [leadsWith, wext]
  | [b, c] => simp [leadsWith, wext]
  | b :: c :: d :: Y => simp [leadsWith, wext]

theorem containsSub_wext_append_dash (A B : PyStr) :
    containsSub wext (A ++ '-' :: B) = (containsSub wext A || containsSub wext B) := by
  induction A with
  | nil =>
    simp [containsSub, leadsWith, wext]
  | cons a A ih =>
    rw [List.cons_append]
    show (leadsWith wext (a :: (A ++ '-' :: B)) || containsSub wext (A ++ '-' :: B)) = _
    rw [← List.cons_append, leadsWith_wext_append_dash, ih]
    show _ = ((leadsWith wext (a :: A) || containsSub wext A) || containsSub wext B)
    rw [Bool.or_assoc]

theorem findVersionIdx_eq_none (A : List PyStr)
    (hA : ∀ p ∈ A, isVersionPart p = false) : findVersionIdx A = none := by
  induction A with
  | nil => rfl
  | cons p ps ih =>
    rw [findVersionIdx, if_neg (by simp [hA p (List.mem_cons_self p ps)]),
      ih (fun q hq => hA q (List.mem_cons_of_mem p hq))]
    rfl

theorem findVersionIdx_first (A : List PyStr) (v : PyStr) (B : List PyStr)
    (hA : ∀ p ∈ A, isVersionPart p = false) (hv : isVersionPart v = true) :
    findVersionIdx (A ++ v :: B) = some A.length := by
  induction A with
  | nil => simp [findVersionIdx, hv]
  | cons p ps ih =>
    rw [List.cons_append, findVersionIdx,
      if_neg (by simp [hA p (List.mem_cons_self p ps)]),
      ih (fun q hq => hA q (List.mem_cons_of_mem p hq))]
    simp

theorem not_mem_replaceChar (old new : Char) (s : PyStr) (hne : old ≠ new) :
    old ∉ replaceChar old new s := by
  intro hmem
  obtain ⟨y, _, hy⟩ := List.mem_map.mp hmem
  by_cases hyo : y = old
  · rw [if_pos hyo] at hy
    exact hne hy.symm
  · rw [if_neg hyo] at hy
    exact hyo hy

theorem replaceChar_of_not_mem (old new : Char) (s : PyStr) (h : old ∉ s) :
    replaceChar old new s = s := by
  have hcong : ∀ x ∈ s, (if x = old then new else x) = x := by
    intro x hx
    have hxo : x ≠ old := by
      intro he
      rw [he] at hx
      exact h hx
    rw [if_neg hxo]
  calc replaceChar old new s = s.map id := List.map_congr_left hcong
    _ = s := List.map_id s

/-! ## Claim theorems: the filename parser -/

/-- C2: for every valid archive filename `{name}-{version}[-{build}]-{tags}.whl`
whose version is the first hyphen-separated segment beginning with a decimal
digit, `get_package_name_from_wheel` returns the join with `'-'` of all
segments preceding the version segment, with underscores replaced by hyphens
and casing preserved; when no segment starts with a digit the first segment
alone (underscore-normalised) is returned; in particular
`PyYAML-6.0-cp314-cp314-android.whl ↦ PyYAML` and
`Some_Package-1.0-cp314-cp314-android.whl ↦ Some-Package`. -/
theorem parse_identity_of_valid_filename :
    (∀ nameS verS restS : PyStr,
      (∀ s ∈ splitOnChar '-' nameS, isVersionPart s = false) →
      isVersionPart verS = true → '-' ∉ verS →
      containsSub wext (nameS ++ '-' :: (verS ++ '-' :: restS)) = false →
      get_package_name_from_wheel ((nameS ++ '-' :: (verS ++ '-' :: restS)) ++ wext) =
        some (replaceChar '_' '-' nameS)) ∧
    (∀ F : PyStr,
      (∀ s ∈ splitOnChar '-' (removeWhl F), isVersionPart s = false) →
      get_package_name_from_wheel F =
        some (replaceChar '_' '-' ((splitOnChar '-' (removeWhl F)).headI))) ∧
    get_package_name_from_wheel "PyYAML-6.0-cp314-cp314-android.whl".data =
      some "PyYAML".data ∧
    get_package_name_from_wheel "Some_Package-1.0-cp314-cp314-android.whl".data =
      some "Some-Package".data := by
  refine ⟨?_, ?_, by decide, by decide⟩
  · intro nameS verS restS h1 h2 h2b h3
    have hstrip := removeWhl_append_wext _ h3
    have hsplit : splitOnChar '-' (nameS ++ '-' :: (verS ++ '-' :: restS)) =
        splitOnChar '-' nameS ++ verS :: splitOnChar '-' restS := by
      rw [splitOnChar_append, splitOnChar_append, splitOnChar_of_not_mem '-' verS h2b]
      rfl
    have hfind := findVersionIdx_first (splitOnChar '-' nameS) verS
      (splitOnChar '-' restS) h1 h2
    simp only [get_package_name_from_wheel, hstrip, hsplit, hfind]
    rw [List.take_left, joinSep_splitOnChar]
  · intro F hall
    have hnone := findVersionIdx_eq_none _ hall
    obtain ⟨hd, tl, hs⟩ :=
      List.exists_cons_of_ne_nil (splitOnChar_ne_nil '-' (removeWhl F))
    rw [hs] at hnone
    simp only [get_package_name_from_wheel, hs, hnone, List.headI]

/-- C2 witness: the first clause instantiated at
`my-package-2.1-cp314-linux.whl` (a hyphenated distribution name). -/
theorem parse_identity_of_valid_filename_witness :
    get_package_name_from_wheel
        (("my-package".data ++ '-' :: ("2.1".data ++ '-' :: "cp314-linux".data)) ++ wext) =
      some (replaceChar '_' '-' "my-package".data) :=
  parse_identity_of_valid_filename.1 "my-package".data "2.1".data "cp314-linux".data
    (by decide) (by decide) (by decide) (by decide)

/-- C6 counterexample: `".whl"` is empty after extension stripping, yet the
parser returns the (falsy but non-null) empty string, not `None`: Python's
`''.split('-')` is `['']`, so the `return None` line is unreachable. -/
theorem parse_identity_empty_counterexample :
    removeWhl ".whl".data = "".data ∧
    get_package_name_from_wheel ".whl".data = some "".data ∧
    get_package_name_from_wheel ".whl".data ≠ none := by decide

/-- C6 amended: on every filename that is empty after extension stripping,
`get_package_name_from_wheel` returns `some ""` — the empty string, a falsy
value distinct from Python's `None`. -/
theorem parse_identity_empty_returns_empty_string (F : PyStr)
    (h : removeWhl F = []) : get_package_name_from_wheel F = some [] := by
  simp only [get_package_name_from_wheel, h]
  rfl

/-- C6 amended witness: the amended statement at the concrete input `".whl"`. -/
theorem parse_identity_empty_returns_empty_string_witness :
    get_package_name_from_wheel ".whl".data = some [] :=
  parse_identity_empty_returns_empty_string ".whl".data (by decide)

/-- C9: whenever `get_package_name_from_wheel` returns an identity, that
identity contains no underscore — normalisation applies on the main path and
on the no-version fallback path alike. -/
theorem parse_identity_no_underscore (F r : PyStr)
    (h : get_package_name_from_wheel F = some r) : '_' ∉ r := by
  simp only [get_package_name_from_wheel] at h
  cases hf : findVersionIdx (splitOnChar '-' (removeWhl F)) with
  | some i =>
    rw [hf] at h
    injection h with h
    rw [← h]
    exact not_mem_replaceChar '_' '-' _ (by decide)
  | none =>
    rw [hf] at h
    obtain ⟨hd, tl, hs⟩ :=
      List.exists_cons_of_ne_nil (splitOnChar_ne_nil '-' (removeWhl F))
    rw [hs] at h
    injection h with h
    rw [← h]
    exact not_mem_replaceChar '_' '-' _ (by decide)

/-- C9 witness: the invariant applied at a concrete filename with an
underscore in its distribution name. -/
theorem parse_identity_no_underscore_witness :
    ('_' : Char) ∉ "Some-Package".data :=
  parse_identity_no_underscore "Some_Package-1.0-cp314-cp314-android.whl".data
    "Some-Package".data (by decide)

/-- C10: extension stripping deletes every occurrence of `".whl"` anywhere in
the filename before splitting, so on `a.whlb-1.0.whl` (interior `".whl"`)
the parsed identity `ab` differs from the identity `a.whlb` a trailing-only
strip would produce, and `rename_wheel_for_alias` strips globally too. -/
theorem strip_is_global_deletion :
    removeWhl "a.whlb-1.0.whl".data = "ab-1.0".data ∧
    get_package_name_from_wheel "a.whlb-1.0.whl".data = some "ab".data ∧
    stripExtTrailingOnly "a.whlb-1.0.whl".data = "a.whlb-1.0".data ∧
    identityWithTrailingStripOnly "a.whlb-1.0.whl".data = some "a.whlb".data ∧
    get_package_name_from_wheel "a.whlb-1.0.whl".data ≠
      identityWithTrailingStripOnly "a.whlb-1.0.whl".data ∧
    rename_wheel_for_alias "a.whlb-1.0.whl".data "ab".data "xy".data =
      "xy-1.0.whl".data := by decide

/-! ## Claim theorems: alias renaming (C5) -/

theorem renameScan_skip (o n : PyStr) (A : List PyStr)
    (hA : ∀ p ∈ A, isVersionPart p = false) :
    ∀ (pre rest : List PyStr),
      renameScan o n pre (A ++ rest) = renameScan o n (pre ++ A) rest := by
  induction A with
  | nil => intro pre rest; simp
  | cons p ps ih =>
    intro pre rest
    have hp : isVersionPart p = false := hA p (List.mem_cons_self p ps)
    rw [List.cons_append, renameScan, if_neg (by simp [hp]),
      ih (fun q hq => hA q (List.mem_cons_of_mem p hq)) (pre ++ [p]) rest]
    congr 1
    simp

/-- The value `rename_wheel_for_alias` computes on a well-formed filename
whose pre-version prefix matches `old_name` case-insensitively and contains
no underscore. -/
theorem rename_wheel_shape (nameS verS restS oldN newN : PyStr)
    (h1 : ∀ s ∈ splitOnChar '-' nameS, isVersionPart s = false)
    (h2 : isVersionPart verS = true) (h2b : '-' ∉ verS)
    (h3 : containsSub wext (nameS ++ '-' :: (verS ++ '-' :: restS)) = false)
    (h4 : toLowerStr (replaceChar '_' '-' nameS) = toLowerStr oldN)
    (h5 : '_' ∉ nameS) :
    rename_wheel_for_alias ((nameS ++ '-' :: (verS ++ '-' :: restS)) ++ wext) oldN newN =
      (newN ++ '-' :: (verS ++ '-' :: restS)) ++ wext := by
  have hstrip := removeWhl_append_wext _ h3
  have hsplit : splitOnChar '-' (nameS ++ '-' :: (verS ++ '-' :: restS)) =
      splitOnChar '-' nameS ++ verS :: splitOnChar '-' restS := by
    rw [splitOnChar_append, splitOnChar_append, splitOnChar_of_not_mem '-' verS h2b]
    rfl
  obtain ⟨hd, tl, hs⟩ := List.exists_cons_of_ne_nil (splitOnChar_ne_nil '-' restS)
  have hjoin : joinSep '-' (splitOnChar '-' nameS) = nameS := joinSep_splitOnChar '-' nameS
  have hjoin2 : joinSep '-' (newN :: verS :: splitOnChar '-' restS) =
      newN ++ '-' :: (verS ++ '-' :: restS) := by
    have hj3 : joinSep '-' (hd :: tl) = restS := by
      rw [← hs, joinSep_splitOnChar]
    rw [hs]
    show newN ++ '-' :: joinSep '-' (verS :: hd :: tl) = _
    rw [show joinSep '-' (verS :: hd :: tl) = verS ++ '-' :: joinSep '-' (hd :: tl) from rfl,
      hj3]
  have hscan : renameScan oldN newN [] (splitOnChar '-' nameS ++ verS :: splitOnChar '-' restS) =
      some ((newN ++ '-' :: (verS ++ '-' :: restS)) ++ wext) := by
    rw [renameScan_skip oldN newN (splitOnChar '-' nameS) h1 [] (verS :: splitOnChar '-' restS),
      List.nil_append, renameScan, if_pos (by simp [h2])]
    simp only [hjoin, h4, eq_self_iff_true, if_true]
    rw [if_neg h5, hjoin2]
  rw [rename_wheel_for_alias, hstrip, hsplit, hscan]

/-- C5 counterexample: the claim's premise holds for
`Some_Package-1.0-x.whl` with `from_name = "Some-Package"` (the parsed
identity equals it even literally), yet the round trip through
`rename_wheel_for_alias` cannot restore the underscore and returns
`Some-Package-1.0-x.whl ≠ Some_Package-1.0-x.whl`. -/
theorem rename_roundtrip_counterexample :
    get_package_name_from_wheel "Some_Package-1.0-x.whl".data =
      some "Some-Package".data ∧
    rename_wheel_for_alias "Some_Package-1.0-x.whl".data "Some-Package".data
      "pyyaml".data = "pyyaml-1.0-x.whl".data ∧
    rename_wheel_for_alias "pyyaml-1.0-x.whl".data "pyyaml".data
      "Some-Package".data = "Some-Package-1.0-x.whl".data ∧
    rename_wheel_for_alias
        (rename_wheel_for_alias "Some_Package-1.0-x.whl".data "Some-Package".data
          "pyyaml".data)
        "pyyaml".data "Some-Package".data ≠ "Some_Package-1.0-x.whl".data := by decide

/-- C5 amended: the rename round-trips exactly when the filename is
underscore-free in its pre-version prefix, carries `".whl"` only as its
trailing extension, `from_name` equals the pre-version prefix literally, and
`to_name` is a single clean segment (no hyphen, no underscore, not
digit-leading, no `".whl"` inside); then
`rename_for_alias(rename_for_alias(F, from, to), to, from) = F`, with the
forward rename substituting `to_name` for the prefix. -/
theorem rename_for_alias_roundtrip (nameS verS restS toN : PyStr)
    (h1 : ∀ s ∈ splitOnChar '-' nameS, isVersionPart s = false)
    (h2 : isVersionPart verS = true) (h2b : '-' ∉ verS)
    (h3 : containsSub wext (nameS ++ '-' :: (verS ++ '-' :: restS)) = false)
    (h5 : '_' ∉ nameS)
    (t1 : isVersionPart toN = false) (t2 : '-' ∉ toN) (t3 : '_' ∉ toN)
    (t4 : containsSub wext toN = false) :
    rename_wheel_for_alias ((nameS ++ '-' :: (verS ++ '-' :: restS)) ++ wext)
        nameS toN = (toN ++ '-' :: (verS ++ '-' :: restS)) ++ wext ∧
    rename_wheel_for_alias ((toN ++ '-' :: (verS ++ '-' :: restS)) ++ wext)
        toN nameS = (nameS ++ '-' :: (verS ++ '-' :: restS)) ++ wext := by
  have hT : containsSub wext (verS ++ '-' :: restS) = false := by
    rcases Bool.or_eq_false_iff.mp (containsSub_wext_append_dash nameS (verS ++ '-' :: restS) ▸ h3)
      with ⟨hc1, hc2⟩
    exact hc2
  constructor
  · exact rename_wheel_shape nameS verS restS nameS toN h1 h2 h2b h3
      (by rw [replaceChar_of_not_mem '_' '-' nameS h5]) h5
  · apply rename_wheel_shape toN verS restS toN nameS
    · intro s hsm
      rw [splitOnChar_of_not_mem '-' toN t2] at hsm
      rcases List.mem_cons.mp hsm with hsm | hsm
      · rw [hsm]; exact t1
      · cases hsm
    · exact h2
    · exact h2b
    · rw [containsSub_wext_append_dash, t4, hT]
      rfl
    · rw [replaceChar_of_not_mem '_' '-' toN t3]
    · exact t3

/-- C5 amended witness: the claim's own example
`PyYAML-6.0-cp314-cp314-android.whl` with alias pair
`PyYAML / pyyaml` round-trips. -/
theorem rename_for_alias_roundtrip_witness :
    rename_wheel_for_alias
        (("PyYAML".data ++ '-' :: ("6.0".data ++ '-' :: "cp314-cp314-android".data)) ++ wext)
        "PyYAML".data "pyyaml".data =
      ("pyyaml".data ++ '-' :: ("6.0".data ++ '-' :: "cp314-cp314-android".data)) ++ wext ∧
    rename_wheel_for_alias
        (("pyyaml".data ++ '-' :: ("6.0".data ++ '-' :: "cp314-cp314-android".data)) ++ wext)
        "pyyaml".data "PyYAML".data =
      ("PyYAML".data ++ '-' :: ("6.0".data ++ '-' :: "cp314-cp314-android".data)) ++ wext :=
  rename_for_alias_roundtrip "PyYAML".data "6.0".data "cp314-cp314-android".data
    "pyyaml".data (by decide) (by decide) (by decide) (by decide) (by decide)
    (by decide) (by decide) (by decide) (by decide)

/-! ## Claim theorems: configuration-source precedence (C8) -/

/-- C8 counterexample: `packages.yaml` exists (a richer source is present)
but contributes no packages, and `read_packages.main` still falls back to
`packages.txt` — contradicting "the legacy flat list is used only if neither
of the two richer sources exists". -/
theorem config_precedence_counterexample :
    (ConfigEnv.mk false [] true [] true [⟨"pkgA", []⟩]).yamlExists = true ∧
    selectPackages (ConfigEnv.mk false [] true [] true [⟨"pkgA", []⟩]) =
      .ok [⟨"pkgA", []⟩] := by decide

/-- C8 amended: the recipes directory takes priority and `packages.yaml`
contributes only packages whose names recipes did not already define; the
legacy `packages.txt` is consulted exactly when the two richer sources
together contribute no package records (in particular when neither exists);
and when no source contributes anything — including the complete absence of
all three sources — the run fails. -/
theorem config_source_precedence (env : ConfigEnv) :
    (∀ rich : List PackageRecord,
      rich = (if env.recipesNonempty then env.recipesData else []) ++
        (if env.yamlExists then
          env.yamlData.filter fun p =>
            !decide (p.name ∈ recordNames (if env.recipesNonempty then env.recipesData else []))
        else []) →
      (rich ≠ [] → selectPackages env = .ok rich) ∧
      (rich = [] → env.txtExists = true → env.txtData ≠ [] →
        selectPackages env = .ok env.txtData) ∧
      (rich = [] → (env.txtExists = false ∨ env.txtData = []) →
        selectPackages env = .error ())) := by
  intro rich hrich
  have hpd2 : (if env.yamlExists then
      (if env.recipesNonempty then env.recipesData else []) ++
        env.yamlData.filter (fun p =>
          !decide (p.name ∈ recordNames (if env.recipesNonempty then env.recipesData else [])))
    else (if env.recipesNonempty then env.recipesData else [])) = rich := by
    cases hy : env.yamlExists <;> simp [hy] at hrich ⊢ <;> rw [hrich]
  have hsel : selectPackages env =
      (if (rich.isEmpty && env.txtExists) = true then
        (if env.txtData.isEmpty = true then Except.error () else Except.ok env.txtData)
      else (if rich.isEmpty = true then Except.error () else Except.ok rich)) := by
    simp only [selectPackages, hpd2]
    by_cases hc : (rich.isEmpty && env.txtExists) = true
    · simp [hc]
    · simp [hc]
  have hfalse : ∀ (l : List PackageRecord), l ≠ [] → l.isEmpty = false := by
    intro l hl
    cases l
    · exact absurd rfl hl
    · rfl
  refine ⟨?_, ?_, ?_⟩
  · intro hne
    rw [hsel, hfalse rich hne]
    simp
  · intro hempty htxt htd
    rw [hsel, hempty, htxt, hfalse env.txtData htd]
    simp
  · intro hempty hcase
    rw [hsel, hempty]
    rcases hcase with htxt | htd
    · rw [htxt]
      simp
    · rw [htd]
      cases htxt2 : env.txtExists <;> simp

/-- C8 amended witness: with a recipe package `r1` also named in
`packages.yaml`, the yaml copy is skipped and the yaml-only package `y`
is appended after the recipes. -/
theorem config_source_precedence_witness :
    selectPackages
        (ConfigEnv.mk true [⟨"r1", []⟩] true [⟨"r1", ["x"]⟩, ⟨"y", []⟩] false []) =
      .ok [⟨"r1", []⟩, ⟨"y", []⟩] :=
  ((config_source_precedence
      (ConfigEnv.mk true [⟨"r1", []⟩] true [⟨"r1", ["x"]⟩, ⟨"y", []⟩] false []))
    [⟨"r1", []⟩, ⟨"y", []⟩] (by decide)).1 (by decide)

/-! ## Claim theorems: alias index pages (C4) -/

/-- C4: for every archive group whose name has a configured alias differing
from it, the index builder materialises both the natural page and the alias
page; the alias page's filenames are the `rename_wheel_for_alias` rewrites,
and its content hashes agree entry by entry with the natural page's (both
hash the same source paths). -/
theorem alias_pages_hash_equal (hashFn : String → String)
    (package_aliases : List (PyStr × PyStr))
    (packages : List (PyStr × List (PyStr × String)))
    (pname : PyStr) (wheels : List (PyStr × String)) (configured : PyStr)
    (hmem : (pname, wheels) ∈ packages)
    (hlook : package_aliases.lookup (toLowerStr pname) = some configured)
    (hne : configured ≠ pname) (hne2 : ¬configured.isEmpty = true) :
    (pname, generate_package_index_links hashFn wheels none none) ∈
      packageIndexPages hashFn package_aliases packages ∧
    (configured, generate_package_index_links hashFn wheels (some pname) (some configured)) ∈
      packageIndexPages hashFn package_aliases packages ∧
    (generate_package_index_links hashFn wheels (some pname) (some configured)).map
        LinkEntry.displayName =
      wheels.map (fun w => rename_wheel_for_alias w.1 pname configured) ∧
    (generate_package_index_links hashFn wheels (some pname) (some configured)).map
        LinkEntry.contentHash =
      (generate_package_index_links hashFn wheels none none).map
        LinkEntry.contentHash := by
  have hcontrib : (packageIndexPages hashFn package_aliases packages =
      packages.flatMap fun pkg =>
        (let natural := (pkg.1, generate_package_index_links hashFn pkg.2 none none)
         match package_aliases.lookup (toLowerStr pkg.1) with
         | some configured =>
           if ¬configured.isEmpty ∧ configured ≠ pkg.1 then
             [natural,
              (configured,
               generate_package_index_links hashFn pkg.2 (some pkg.1) (some configured))]
           else [natural]
         | none => [natural])) := rfl
  have hpage : ∀ x ∈ ([(pname, generate_package_index_links hashFn wheels none none),
      (configured,
        generate_package_index_links hashFn wheels (some pname) (some configured))] :
        List (PyStr × List LinkEntry)),
      x ∈ packageIndexPages hashFn package_aliases packages := by
    intro x hx
    rw [hcontrib]
    refine List.mem_flatMap.mpr ⟨(pname, wheels), hmem, ?_⟩
    simp only [hlook]
    rw [if_pos ⟨hne2, hne⟩]
    exact hx
  refine ⟨hpage _ (by simp), hpage _ (by simp), ?_, ?_⟩
  · simp [generate_package_index_links, List.map_map]
  · simp [generate_package_index_links, List.map_map]

/-- C4 witness: the alias-page guarantees at a concrete index run with one
`PyYAML` wheel aliased to `pyyaml` (content hash modelled as the path
itself). -/
theorem alias_pages_hash_equal_witness :
    ("PyYAML".data,
      generate_package_index_links (fun p => p)
        [("PyYAML-6.0-cp314.whl".data, "wheels/PyYAML-6.0-cp314.whl")] none none) ∈
      packageIndexPages (fun p => p) [("pyyaml".data, "pyyaml".data)]
        [("PyYAML".data, [("PyYAML-6.0-cp314.whl".data, "wheels/PyYAML-6.0-cp314.whl")])] ∧
    ("pyyaml".data,
      generate_package_index_links (fun p => p)
        [("PyYAML-6.0-cp314.whl".data, "wheels/PyYAML-6.0-cp314.whl")]
        (some "PyYAML".data) (some "pyyaml".data)) ∈
      packageIndexPages (fun p => p) [("pyyaml".data, "pyyaml".data)]
        [("PyYAML".data, [("PyYAML-6.0-cp314.whl".data, "wheels/PyYAML-6.0-cp314.whl")])] ∧
    (generate_package_index_links (fun p => p)
        [("PyYAML-6.0-cp314.whl".data, "wheels/PyYAML-6.0-cp314.whl")]
        (some "PyYAML".data) (some "pyyaml".data)).map LinkEntry.displayName =
      [("PyYAML-6.0-cp314.whl".data, "wheels/PyYAML-6.0-cp314.whl")].map
        (fun w => rename_wheel_for_alias w.1 "PyYAML".data "pyyaml".data) ∧
    (generate_package_index_links (fun p => p)
        [("PyYAML-6.0-cp314.whl".data, "wheels/PyYAML-6.0-cp314.whl")]
        (some "PyYAML".data) (some "pyyaml".data)).map LinkEntry.contentHash =
      (generate_package_index_links (fun p => p)
        [("PyYAML-6.0-cp314.whl".data, "wheels/PyYAML-6.0-cp314.whl")] none none).map
        LinkEntry.contentHash :=
  alias_pages_hash_equal (fun p => p) [("pyyaml".data, "pyyaml".data)]
    [("PyYAML".data, [("PyYAML-6.0-cp314.whl".data, "wheels/PyYAML-6.0-cp314.whl")])]
    "PyYAML".data [("PyYAML-6.0-cp314.whl".data, "wheels/PyYAML-6.0-cp314.whl")]
    "pyyaml".data (by simp) (by decide) (by decide) (by decide)

/-! ## Claim theorems: missing-dependency tolerance (C7) -/

theorem dictKeys_foldl (records : List PackageRecord) :
    ∀ init, records.foldl (fun ks p => insertKey ks p.name) init =
      (recordNames records).foldl insertKey init := by
  induction records with
  | nil => intro init; rfl
  | cons p ps ih => intro init; exact ih (insertKey init p.name)

theorem dictKeys_eq_of_names (r1 r2 : List PackageRecord)
    (h : recordNames r1 = recordNames r2) : dictKeys r1 = dictKeys r2 := by
  rw [dictKeys, dictKeys, dictKeys_foldl, dictKeys_foldl, h]

theorem pkgMap_some_name (records : List PackageRecord) (n : String) (p : PackageRecord)
    (h : pkgMap records n = some p) : p.name = n := by
  have hmem := List.mem_of_mem_getLast? h
  exact eq_of_beq (List.mem_filter.mp hmem).2

theorem pkgMap_some_mem (records : List PackageRecord) (n : String) (p : PackageRecord)
    (h : pkgMap records n = some p) : p ∈ records := by
  have hmem := List.mem_of_mem_getLast? h
  exact (List.mem_filter.mp hmem).1

theorem pkgMap_eq_none_iff (records : List PackageRecord) (n : String) :
    pkgMap records n = none ↔ n ∉ recordNames records := by
  rw [pkgMap, List.getLast?_eq_none_iff]
  constructor
  · intro h hmem
    obtain ⟨p, hp, hpn⟩ := List.mem_map.mp hmem
    have hpf : p ∈ records.filter (fun p => p.name == n) :=
      List.mem_filter.mpr ⟨hp, by simp [hpn]⟩
    rw [h] at hpf
    cases hpf
  · intro h
    rcases hf : records.filter (fun p => p.name == n) with _ | ⟨q, qs⟩
    · exact hf
    · have hq : q ∈ records.filter (fun p => p.name == n) := by
        rw [hf]; exact List.mem_cons_self q qs
      obtain ⟨hq1, hq2⟩ := List.mem_filter.mp hq
      exact (h (List.mem_map.mpr ⟨q, hq1, eq_of_beq hq2⟩)).elim

theorem map_name_filterMap_pkgMap (records : List PackageRecord) (ns : List String) :
    (ns.filterMap (pkgMap records)).map PackageRecord.name =
      ns.filter fun n => decide (n ∈ recordNames records) := by
  induction ns with
  | nil => rfl
  | cons n ns ih =>
    cases hp : pkgMap records n with
    | none =>
      have hn : n ∉ recordNames records := (pkgMap_eq_none_iff records n).mp hp
      simp [List.filterMap_cons, hp, List.filter_cons, hn, ih]
    | some p =>
      have hname : p.name = n := pkgMap_some_name records n p hp
      have hn : n ∈ recordNames records := by
        rw [← hname]
        exact List.mem_map.mpr ⟨p, pkgMap_some_mem records n p hp, rfl⟩
      simp [List.filterMap_cons, hp, List.filter_cons, hn, ih, hname]

theorem edges_eq_pruned (records : List PackageRecord) :
    edges (records.map fun p =>
        PackageRecord.mk p.name
          (p.build_dependencies.filter fun d => decide (d ∈ recordNames records))) =
      edges records := by
  have hnames : recordNames (records.map fun p =>
      PackageRecord.mk p.name
        (p.build_dependencies.filter fun d => decide (d ∈ recordNames records))) =
      recordNames records := by
    simp [recordNames, List.map_map]
  rw [edges, edges, List.flatMap_map]
  congr 1
  funext p
  simp only [hnames, List.filter_filter]
  simp [Bool.and_self]

/-- C7: a record declaring a build dependency on a name outside the record
set still sorts: the unresolved edges are dropped before Kahn's algorithm
runs, so the result (compared on names, since the records themselves keep
their original dependency lists) is the same as for the input with those
dependencies deleted; a concrete missing dependency sorts successfully and
emits a `MissingDependencyWarning`. -/
theorem topological_sort_drops_missing_deps :
    (∀ records : List PackageRecord,
      (topological_sort (records.map fun p =>
          PackageRecord.mk p.name
            (p.build_dependencies.filter fun d => decide (d ∈ recordNames records)))).map
        (List.map PackageRecord.name) =
      (topological_sort records).map (List.map PackageRecord.name)) ∧
    topological_sort [⟨"a", ["zzz"]⟩] = .ok [⟨"a", ["zzz"]⟩] ∧
    missingDepWarnings [⟨"a", ["zzz"]⟩] = [("a", "zzz")] := by
  refine ⟨?_, by decide, by decide⟩
  intro records
  have hnames : recordNames (records.map fun p =>
      PackageRecord.mk p.name
        (p.build_dependencies.filter fun d => decide (d ∈ recordNames records))) =
      recordNames records := by
    simp [recordNames, List.map_map]
  have hedges := edges_eq_pruned records
  have hkeys := dictKeys_eq_of_names _ _ hnames
  have hgraph : graphFn (records.map fun p =>
      PackageRecord.mk p.name
        (p.build_dependencies.filter fun d => decide (d ∈ recordNames records))) =
      graphFn records := by
    funext d
    rw [graphFn, graphFn, hedges]
  have hdeg : initInDegree (records.map fun p =>
      PackageRecord.mk p.name
        (p.build_dependencies.filter fun d => decide (d ∈ recordNames records))) =
      initInDegree records := by
    funext n
    rw [initInDegree, initInDegree, hedges]
  have hlen : (records.map fun p =>
      PackageRecord.mk p.name
        (p.build_dependencies.filter fun d => decide (d ∈ recordNames records))).length =
      records.length := List.length_map records _
  simp only [topological_sort, hedges, hkeys, hgraph, hdeg, hlen]
  have hL : ∀ ns : List String,
      (ns.filterMap (pkgMap (records.map fun p =>
        PackageRecord.mk p.name
          (p.build_dependencies.filter fun d => decide (d ∈ recordNames records))))).length =
      (ns.filterMap (pkgMap records)).length := by
    intro ns
    rw [← List.length_map (ns.filterMap _) PackageRecord.name,
      ← List.length_map (ns.filterMap (pkgMap records)) PackageRecord.name,
      map_name_filterMap_pkgMap, map_name_filterMap_pkgMap, hnames]
  set r := kahnLoop (graphFn records)
    (records.length + (edges records).length + 1)
    ((dictKeys records).filter fun n => initInDegree records n == 0)
    (initInDegree records) [] with hr
  by_cases hc : (r.1.filterMap (pkgMap records)).length = records.length
  · rw [if_pos hc, if_pos (by rw [hL]; exact hc)]
    simp only [Except.map]
    rw [map_name_filterMap_pkgMap, map_name_filterMap_pkgMap, hnames]
  · rw [if_neg hc, if_neg (by rw [hL]; exact hc)]

/-! ## Lexicographic order facts for the queue sort -/

theorem lexLe_refl (as : List Char) : lexLe as as = true := by
  induction as with
  | nil => rfl
  | cons a as ih => simp [lexLe, ih]

theorem lexLe_total (as bs : List Char) : lexLe as bs = true ∨ lexLe bs as = true := by
  induction as generalizing bs with
  | nil => left; rfl
  | cons a as ih =>
    cases bs with
    | nil => right; rfl
    | cons b bs =>
      by_cases hab : a = b
      · subst hab
        simpa [lexLe] using ih bs
      · have hba : b ≠ a := fun he => hab he.symm
        rcases lt_or_gt_of_ne hab with h | h
        · left; simp [lexLe, hab, h]
        · right; simp [lexLe, hba, h]

theorem lexLe_trans (as bs cs : List Char) (h1 : lexLe as bs = true)
    (h2 : lexLe bs cs = true) : lexLe as cs = true := by
  induction as generalizing bs cs with
  | nil => rfl
  | cons a as ih =>
    cases bs with
    | nil => simp [lexLe] at h1
    | cons b bs =>
      cases cs with
      | nil => simp [lexLe] at h2
      | cons c cs =>
        by_cases hab : a = b <;> by_cases hbc : b = c
        · subst hab; subst hbc
          simp [lexLe] at h1 h2 ⊢
          exact ih bs cs h1 h2
        · subst hab
          simp [lexLe, hbc] at h2 ⊢
          simp [h2]
        · subst hbc
          simp [lexLe, hab] at h1 ⊢
          simp [h1]
        · simp [lexLe, hab] at h1
          simp [lexLe, hbc] at h2
          have hac : a < c := lt_trans h1 h2
          simp [lexLe, ne_of_lt hac, hac]

theorem lexLe_antisymm (as bs : List Char) (h1 : lexLe as bs = true)
    (h2 : lexLe bs as = true) : as = bs := by
  induction as generalizing bs with
  | nil =>
    cases bs with
    | nil => rfl
    | cons b bs => simp [lexLe] at h2
  | cons a as ih =>
    cases bs with
    | nil => simp [lexLe] at h1
    | cons b bs =>
      by_cases hab : a = b
      · subst hab
        simp [lexLe] at h1 h2
        rw [ih bs h1 h2]
      · have hba : b ≠ a := fun he => hab he.symm
        simp [lexLe, hab] at h1
        simp [lexLe, hba] at h2
        exact (lt_asymm h1 h2).elim

theorem pyStrLeR_total (a b : String) : pyStrLeR a b ∨ pyStrLeR b a :=
  lexLe_total a.data b.data

theorem pyStrLeR_trans (a b c : String) (h1 : pyStrLeR a b) (h2 : pyStrLeR b c) :
    pyStrLeR a c :=
  lexLe_trans a.data b.data c.data h1 h2

theorem pyStrLeR_antisymm (a b : String) (h1 : pyStrLeR a b) (h2 : pyStrLeR b a) :
    a = b :=
  String.ext (lexLe_antisymm a.data b.data h1 h2)

theorem sortQueue_perm (q : List String) : (sortQueue q).Perm q :=
  List.perm_insertionSort pyStrLeR q

theorem sortQueue_sorted (q : List String) : List.Sorted pyStrLeR (sortQueue q) :=
  @List.sorted_insertionSort String pyStrLeR _ ⟨pyStrLeR_total⟩
    ⟨fun _ _ _ => pyStrLeR_trans _ _ _⟩ q

theorem sortQueue_eq_of_sorted (q : List String) (h : List.Sorted pyStrLeR q) :
    sortQueue q = q :=
  @List.eq_of_perm_of_sorted String pyStrLeR
    ⟨fun _ _ h1 h2 => pyStrLeR_antisymm _ _ h1 h2⟩ _ _
    (sortQueue_perm q) (sortQueue_sorted q) h

/-! ## Edge and dict lemmas for the Kahn loop -/

theorem mem_edges (records : List PackageRecord) (e : String × String)
    (he : e ∈ edges records) :
    e.1 ∈ recordNames records ∧ e.2 ∈ recordNames records := by
  rw [edges] at he
  obtain ⟨p, hp, he2⟩ := List.mem_flatMap.mp he
  obtain ⟨d, hd, he3⟩ := List.mem_map.mp he2
  obtain ⟨hd1, hd2⟩ := List.mem_filter.mp hd
  rw [← he3]
  exact ⟨of_decide_eq_true hd2, List.mem_map.mpr ⟨p, hp, rfl⟩⟩

theorem count_map_snd (l : List (String × String)) (n : String) :
    (l.map Prod.snd).count n = (l.filter fun e => e.2 == n).length := by
  induction l with
  | nil => rfl
  | cons e l ih =>
    by_cases h : (e.2 == n) = true
    · simp only [List.map_cons, List.count_cons, List.filter_cons, h, ih]
      simp
    · simp only [List.map_cons, List.count_cons, List.filter_cons, h, ih]
      simp

theorem graphFn_count (records : List PackageRecord) (d n : String) :
    (graphFn records d).count n =
      ((edges records).filter fun e => e.1 == d && e.2 == n).length := by
  rw [graphFn, count_map_snd, List.filter_filter]
  exact congrArg List.length (List.filter_congr fun e _ => Bool.and_comm _ _)

theorem length_filter_split {α : Type} (l : List α) (p q : α → Bool) :
    (l.filter p).length =
      (l.filter fun e => p e && q e).length +
        (l.filter fun e => p e && !q e).length := by
  induction l with
  | nil => rfl
  | cons e l ih =>
    by_cases hp : p e = true
    · by_cases hq : q e = true
      · simp only [List.filter_cons, hp, hq]
        simp only [Bool.and_self, Bool.not_true, Bool.and_false, Bool.and_true,
          if_true, if_false, hp, hq]
        simp [ih]
        omega
      · have hq2 : q e = false := by simpa using hq
        simp only [List.filter_cons, hp, hq2]
        simp [ih]
        omega
    · have hp2 : p e = false := by simpa using hp
      simp only [List.filter_cons, hp2]
      simp [ih]

theorem unprocCount_split (records : List PackageRecord) (out : List String)
    (current n : String) (hcur : current ∉ out) :
    unprocCount records out n =
      unprocCount records (out ++ [current]) n +
        ((edges records).filter fun e => e.1 == current && e.2 == n).length := by
  rw [unprocCount, unprocCount,
    length_filter_split (edges records)
      (fun e => e.2 == n && !decide (e.1 ∈ out)) (fun e => e.1 == current)]
  have h1 : (edges records).filter
      (fun e => (e.2 == n && !decide (e.1 ∈ out)) && e.1 == current) =
      (edges records).filter (fun e => e.1 == current && e.2 == n) := by
    apply List.filter_congr
    intro e _
    by_cases hc : e.1 = current
    · have hb : (e.1 == current) = true := by simpa using hc
      have hd : decide (e.1 ∈ out) = false := by
        rw [hc]
        simpa using hcur
      simp [hb, hd]
    · have hb : (e.1 == current) = false := by simpa using hc
      simp [hb]
  have h2 : (edges records).filter
      (fun e => (e.2 == n && !decide (e.1 ∈ out)) && !(e.1 == current)) =
      (edges records).filter (fun e => e.2 == n && !decide (e.1 ∈ out ++ [current])) := by
    apply List.filter_congr
    intro e _
    by_cases hc : e.1 = current <;> by_cases ho : e.1 ∈ out <;>
      simp [hc, ho, List.mem_append]
  rw [h1, h2]
  omega

theorem insertKey_nodup (ks : List String) (k : String) (h : ks.Nodup) :
    (insertKey ks k).Nodup := by
  rw [insertKey]
  split
  · exact h
  · rename_i hk
    simp [List.nodup_append, h, hk]

theorem mem_insertKey (ks : List String) (k x : String) :
    x ∈ insertKey ks k ↔ x ∈ ks ∨ x = k := by
  rw [insertKey]
  split
  · rename_i hk
    constructor
    · exact Or.inl
    · rintro (h | h)
      · exact h
      · exact h ▸ hk
  · simp [List.mem_append]

theorem foldl_insertKey_nodup (l : List String) :
    ∀ init : List String, init.Nodup → (l.foldl insertKey init).Nodup := by
  induction l with
  | nil => intro init h; exact h
  | cons a l ih => intro init h; exact ih (insertKey init a) (insertKey_nodup init a h)

theorem mem_foldl_insertKey (l : List String) :
    ∀ (init : List String) (x : String),
      x ∈ l.foldl insertKey init ↔ x ∈ init ∨ x ∈ l := by
  induction l with
  | nil => intro init x; simp
  | cons a l ih =>
    intro init x
    rw [List.foldl_cons, ih, mem_insertKey]
    simp [or_assoc]

theorem dictKeys_nodup (records : List PackageRecord) : (dictKeys records).Nodup := by
  rw [dictKeys, dictKeys_foldl]
  exact foldl_insertKey_nodup _ [] List.nodup_nil

theorem mem_dictKeys (records : List PackageRecord) (x : String) :
    x ∈ dictKeys records ↔ x ∈ recordNames records := by
  rw [dictKeys, dictKeys_foldl, mem_foldl_insertKey]
  simp

theorem foldl_insertKey_of_nodup (l : List String) :
    ∀ init : List String, l.Nodup → (∀ x ∈ l, x ∉ init) →
      l.foldl insertKey init = init ++ l := by
  induction l with
  | nil => intro init _ _; simp
  | cons a l ih =>
    intro init hnd hdisj
    have ha : a ∉ init := hdisj a (List.mem_cons_self a l)
    rw [List.foldl_cons, insertKey, if_neg ha,
      ih (init ++ [a]) hnd.of_cons ?_]
    · simp
    · intro x hx
      simp only [List.mem_append, List.mem_singleton]
      rintro (h | h)
      · exact hdisj x (List.mem_cons_of_mem a hx) h
      · rw [h] at hx
        exact (List.nodup_cons.mp hnd).1 hx

theorem dictKeys_eq_names (records : List PackageRecord)
    (hnd : (recordNames records).Nodup) :
    dictKeys records = recordNames records := by
  rw [dictKeys, dictKeys_foldl]
  have h := foldl_insertKey_of_nodup (recordNames records) [] hnd (by simp)
  simpa using h

/-! ## The relaxation loop -/

theorem relax_cons (nb : String) (rest queue : List String) (indeg : String → Int) :
    relax (nb :: rest) queue indeg =
      relax rest (if indeg nb - 1 = 0 then queue ++ [nb] else queue)
        (fun n => if n = nb then indeg nb - 1 else indeg n) := by
  rw [relax]
  simp only [eq_self_iff_true, if_true]

theorem relax_spec (nbs : List String) :
    ∀ (queue : List String) (indeg : String → Int),
      ∃ app : List String,
        relax nbs queue indeg = (queue ++ app, fun n => indeg n - nbs.count n) ∧
        app.Nodup ∧
        (∀ n, n ∈ app ↔ 1 ≤ indeg n ∧ indeg n ≤ (nbs.count n : Int)) := by
  induction nbs with
  | nil =>
    intro queue indeg
    refine ⟨[], ?_, List.nodup_nil, ?_⟩
    · rw [relax]
      refine Prod.ext ?_ ?_
      · simp
      · funext n
        simp
    · intro n
      simp only [List.not_mem_nil, false_iff, List.count_nil, Nat.cast_zero]
      rintro ⟨hg1, hg2⟩
      omega
  | cons nb rest ih =>
    intro queue indeg
    rw [relax_cons]
    have hfun : (fun n => (if n = nb then indeg nb - 1 else indeg n) -
        (rest.count n : Int)) = fun n => indeg n - ((nb :: rest).count n : Int) := by
      funext n
      by_cases hn : n = nb
      · rw [if_pos hn, hn, List.count_cons_self]
        push_cast
        omega
      · rw [if_neg hn, List.count_cons_of_ne hn]
    by_cases h0 : indeg nb - 1 = 0
    · rw [if_pos h0]
      obtain ⟨app1, heq, hnd1, hiff1⟩ :=
        ih (queue ++ [nb]) (fun n => if n = nb then indeg nb - 1 else indeg n)
      refine ⟨nb :: app1, ?_, ?_, ?_⟩
      · rw [heq, hfun]
        refine Prod.ext ?_ ?_
        · simp
        · rfl
      · refine List.nodup_cons.mpr ⟨?_, hnd1⟩
        intro hmem
        have hx := (hiff1 nb).mp hmem
        rw [if_pos rfl] at hx
        omega
      · intro n
        by_cases hn : n = nb
        · rw [hn]
          simp only [List.mem_cons, true_or, true_iff]
          refine ⟨by omega, ?_⟩
          rw [List.count_cons_self]
          push_cast
          omega
        · simp only [List.mem_cons, hn, false_or]
          rw [hiff1 n, if_neg hn, List.count_cons_of_ne hn]
    · rw [if_neg h0]
      obtain ⟨app1, heq, hnd1, hiff1⟩ :=
        ih queue (fun n => if n = nb then indeg nb - 1 else indeg n)
      refine ⟨app1, ?_, hnd1, ?_⟩
      · rw [heq, hfun]
      · intro n
        by_cases hn : n = nb
        · rw [hiff1 n, if_pos hn, hn, List.count_cons_self]
          push_cast
          omega
        · rw [hiff1 n, if_neg hn, List.count_cons_of_ne hn]

/-! ## One iteration of the Kahn loop preserves the invariant -/

theorem kahn_step (records : List PackageRecord) (queue : List String)
    (indeg : String → Int) (out : List String) (current : String)
    (rest : List String) (hK : KahnInv records queue indeg out)
    (hsq : sortQueue queue = current :: rest) :
    ∃ app : List String,
      relax (graphFn records current) rest indeg =
        (rest ++ app, fun n => indeg n - ((graphFn records current).count n : Int)) ∧
      KahnInv records (rest ++ app)
        (fun n => indeg n - ((graphFn records current).count n : Int))
        (out ++ [current]) := by
  obtain ⟨hK1, hK2, hK3, hK4, hK5, hK6, hK7, hK8, hK9⟩ := hK
  have hperm : (current :: rest).Perm queue := hsq ▸ sortQueue_perm queue
  have hcr_nd : (current :: rest).Nodup := (hperm.nodup_iff).mpr hK3
  have hcur_rest : current ∉ rest := (List.nodup_cons.mp hcr_nd).1
  have hrest_nd : rest.Nodup := (List.nodup_cons.mp hcr_nd).2
  have hcurq : current ∈ queue := hperm.mem_iff.mp (List.mem_cons_self current rest)
  have hcurN : current ∈ recordNames records := (hK4 current hcurq).1
  have hcurout : current ∉ out := (hK4 current hcurq).2
  have hdeg0 : indeg current = 0 := (hK6 current hcurN hcurout).mp hcurq
  have hunproc0 : unprocCount records out current = 0 := by
    have := hK5 current
    rw [hdeg0] at this
    omega
  have hin : ∀ e ∈ edges records, e.2 = current → e.1 ∈ out := by
    intro e he h2
    have hnil : (edges records).filter
        (fun e => e.2 == current && !decide (e.1 ∈ out)) = [] :=
      List.length_eq_zero.mp hunproc0
    have := List.filter_eq_nil_iff.mp hnil e he
    by_contra hout
    apply this
    simp [h2, hout]
  have hsplit : ∀ n, unprocCount records out n =
      unprocCount records (out ++ [current]) n +
        ((edges records).filter fun e => e.1 == current && e.2 == n).length :=
    fun n => unprocCount_split records out current n hcurout
  obtain ⟨app, heq, hndapp, hiffapp⟩ := relax_spec (graphFn records current) rest indeg
  have hcnt : ∀ n, ((graphFn records current).count n : Int) =
      (((edges records).filter fun e => e.1 == current && e.2 == n).length : Int) := by
    intro n
    rw [graphFn_count]
  have hdeg' : ∀ n, indeg n - ((graphFn records current).count n : Int) =
      (unprocCount records (out ++ [current]) n : Int) := by
    intro n
    rw [hcnt, hK5 n, hsplit n]
    push_cast
    omega
  have happ_edge : ∀ n ∈ app, ∃ e ∈ edges records, e.1 = current ∧ e.2 = n := by
    intro n hn
    obtain ⟨hg1, hg2⟩ := (hiffapp n).mp hn
    rw [hcnt] at hg2
    have hpos : ((edges records).filter fun e => e.1 == current && e.2 == n) ≠ [] := by
      intro hnil
      rw [hnil] at hg2
      simp at hg2
      omega
    obtain ⟨e, he⟩ := List.exists_mem_of_ne_nil _ hpos
    obtain ⟨he1, he2⟩ := List.mem_filter.mp he
    have hab : (e.1 == current) = true ∧ (e.2 == n) = true := by
      simpa using he2
    exact ⟨e, he1, eq_of_beq hab.1, eq_of_beq hab.2⟩
  have happ_props : ∀ n ∈ app,
      n ∈ recordNames records ∧ n ∉ out ∧ n ≠ current := by
    intro n hn
    obtain ⟨e, he, he1, he2⟩ := happ_edge n hn
    obtain ⟨hg1, hg2⟩ := (hiffapp n).mp hn
    refine ⟨he2 ▸ (mem_edges records e he).2, ?_, ?_⟩
    · intro hno
      exact hcurout (he1 ▸ hK7 e he (he2.symm ▸ hno))
    · intro hne
      rw [hne, hdeg0] at hg1
      omega
  have hrest_zero : ∀ n ∈ rest, indeg n = 0 := by
    intro n hn
    have hq : n ∈ queue := hperm.mem_iff.mp (List.mem_cons_of_mem current hn)
    exact (hK6 n (hK4 n hq).1 (hK4 n hq).2).mp hq
  refine ⟨app, heq, ?_, ?_, ?_, ?_, ?_, ?_, ?_, ?_, ?_⟩
  · -- out' Nodup
    rw [List.nodup_append]
    exact ⟨hK1, List.nodup_singleton current,
      fun x hx hxc => hcurout ((List.mem_singleton.mp hxc) ▸ hx)⟩
  · -- out' names
    intro n hn
    rcases List.mem_append.mp hn with hn | hn
    · exact hK2 n hn
    · rw [List.mem_singleton.mp hn]
      exact hcurN
  · -- queue' Nodup
    rw [List.nodup_append]
    refine ⟨hrest_nd, hndapp, ?_⟩
    intro x hx hxa
    obtain ⟨hg1, _⟩ := (hiffapp x).mp hxa
    rw [hrest_zero x hx] at hg1
    omega
  · -- queue' members
    intro n hn
    rcases List.mem_append.mp hn with hn | hn
    · have hq : n ∈ queue := hperm.mem_iff.mp (List.mem_cons_of_mem current hn)
      have hne : n ≠ current := fun he => hcur_rest (he ▸ hn)
      refine ⟨(hK4 n hq).1, ?_⟩
      intro hmem
      rcases List.mem_append.mp hmem with hm | hm
      · exact (hK4 n hq).2 hm
      · exact hne (List.mem_singleton.mp hm)
    · obtain ⟨hN, hout, hne⟩ := happ_props n hn
      refine ⟨hN, ?_⟩
      intro hmem
      rcases List.mem_append.mp hmem with hm | hm
      · exact hout hm
      · exact hne (List.mem_singleton.mp hm)
  · -- degree invariant
    exact hdeg'
  · -- queue characterisation
    intro n hN hnout
    have hnout1 : n ∉ out := fun h => hnout (List.mem_append.mpr (Or.inl h))
    have hnec : n ≠ current := fun h =>
      hnout (List.mem_append.mpr (Or.inr (h ▸ List.mem_singleton_self current)))
    show n ∈ rest ++ app ↔ indeg n - ((graphFn records current).count n : Int) = 0
    constructor
    · intro hn
      rcases List.mem_append.mp hn with hn | hn
      · have h0 := hrest_zero n hn
        have hs := hsplit n
        have h5 := hK5 n
        rw [h0] at h5
        rw [hcnt]
        omega
      · obtain ⟨hg1, hg2⟩ := (hiffapp n).mp hn
        have := hdeg' n
        have h5 := hK5 n
        rw [hcnt] at hg2 ⊢
        have hs := hsplit n
        omega
    · intro h0
      have h0b : indeg n - ((graphFn records current).count n : Int) = 0 := h0
      rw [hcnt] at h0b
      by_cases hq : n ∈ queue
      · rcases List.mem_cons.mp (hperm.mem_iff.mpr hq) with hc | hc
        · exact (hnec hc).elim
        · exact List.mem_append.mpr (Or.inl hc)
      · have hne0 : indeg n ≠ 0 := fun hz => hq ((hK6 n hN hnout1).mpr hz)
        have h5 := hK5 n
        have hge : 1 ≤ indeg n := by omega
        refine List.mem_append.mpr (Or.inr ((hiffapp n).mpr ⟨hge, ?_⟩))
        rw [hcnt]
        omega
  · -- predecessor closure
    intro e he h2
    rcases List.mem_append.mp h2 with h2 | h2
    · exact List.mem_append.mpr (Or.inl (hK7 e he h2))
    · exact List.mem_append.mpr (Or.inl (hin e he (List.mem_singleton.mp h2)))
  · -- pairwise no back edges
    rw [List.pairwise_append]
    refine ⟨hK8, List.pairwise_singleton _ _, ?_⟩
    intro a ha b hb hedge
    rw [List.mem_singleton.mp hb] at hedge
    exact hcurout (hK7 (current, a) hedge ha)
  · -- no self edges
    intro n hn hedge
    rcases List.mem_append.mp hn with hn | hn
    · exact hK9 n hn hedge
    · rw [List.mem_singleton.mp hn] at hedge
      exact hcurout (hin (current, current) hedge rfl)

/-! ## The Kahn loop: full-run specification -/

theorem kahnLoop_spec (records : List PackageRecord) :
    ∀ (fuel : Nat) (queue : List String) (indeg : String → Int) (out : List String),
      KahnInv records queue indeg out →
      (recordNames records).length ≤ fuel + out.length →
      ∃ outF indegF,
        kahnLoop (graphFn records) fuel queue indeg out = (outF, indegF) ∧
        (∃ suf, outF = out ++ suf) ∧
        KahnInv records [] indegF outF := by
  intro fuel
  induction fuel with
  | zero =>
    intro queue indeg out hK hfuel
    obtain ⟨hK1, hK2, hK3, hK4, hK5, hK6, hK7, hK8, hK9⟩ := hK
    have hqnil : queue = [] := by
      cases hq : queue with
      | nil => rfl
      | cons q qs =>
        have hmem : q ∈ queue := hq ▸ List.mem_cons_self q qs
        obtain ⟨hqN, hqout⟩ := hK4 q hmem
        have hnd : (out ++ [q]).Nodup := by
          rw [List.nodup_append]
          exact ⟨hK1, List.nodup_singleton q,
            fun x hx hxq => hqout ((List.mem_singleton.mp hxq) ▸ hx)⟩
        have hsub : (out ++ [q]) ⊆ recordNames records := by
          intro x hx
          rcases List.mem_append.mp hx with hx | hx
          · exact hK2 x hx
          · rw [List.mem_singleton.mp hx]
            exact hqN
        have hle := (List.subperm_of_subset hnd hsub).length_le
        simp at hle
        omega
    subst hqnil
    exact ⟨out, indeg, rfl, ⟨[], by simp⟩,
      hK1, hK2, List.nodup_nil, by simp, hK5, hK6, hK7, hK8, hK9⟩
  | succ fuel ih =>
    intro queue indeg out hK hfuel
    cases hsq : sortQueue queue with
    | nil =>
      have hqnil : queue = [] := ((hsq ▸ sortQueue_perm queue).symm).eq_nil
      subst hqnil
      obtain ⟨hK1, hK2, hK3, hK4, hK5, hK6, hK7, hK8, hK9⟩ := hK
      refine ⟨out, indeg, ?_, ⟨[], by simp⟩,
        hK1, hK2, List.nodup_nil, by simp, hK5, hK6, hK7, hK8, hK9⟩
      rw [kahnLoop, hsq]
    | cons current rest =>
      obtain ⟨app, heq, hK2⟩ := kahn_step records queue indeg out current rest hK hsq
      have hstep : kahnLoop (graphFn records) (fuel + 1) queue indeg out =
          kahnLoop (graphFn records) fuel (rest ++ app)
            (fun n => indeg n - ((graphFn records current).count n : Int))
            (out ++ [current]) := by
        rw [kahnLoop, hsq]
        show kahnLoop (graphFn records) fuel
            (relax (graphFn records current) rest indeg).1
            (relax (graphFn records current) rest indeg).2 (out ++ [current]) = _
        rw [heq]
      obtain ⟨outF, indegF, hrun, ⟨suf, hsuf⟩, hKF⟩ :=
        ih (rest ++ app)
          (fun n => indeg n - ((graphFn records current).count n : Int))
          (out ++ [current]) hK2 (by simp only [List.length_append]; simp; omega)
      refine ⟨outF, indegF, ?_, ⟨current :: suf, by simp [hsuf]⟩, hKF⟩
      rw [hstep]
      exact hrun

/-! ## Entry conditions, the no-edge run, and cycles -/

theorem kahn_init (records : List PackageRecord) :
    KahnInv records
      ((dictKeys records).filter fun n => initInDegree records n == 0)
      (initInDegree records) [] := by
  refine ⟨List.nodup_nil, by simp, ?_, ?_, ?_, ?_, by simp, List.Pairwise.nil, by simp⟩
  · exact (dictKeys_nodup records).filter _
  · intro n hn
    exact ⟨(mem_dictKeys records n).mp (List.mem_of_mem_filter hn), by simp⟩
  · intro n
    have hfil : (edges records).filter (fun e => e.2 == n) =
        (edges records).filter (fun e => e.2 == n && !decide (e.1 ∈ ([] : List String))) :=
      List.filter_congr fun e _ => by simp
    rw [initInDegree, unprocCount, hfil]
  · intro n hN _
    rw [List.mem_filter, mem_dictKeys]
    constructor
    · rintro ⟨_, h⟩
      exact eq_of_beq h
    · intro h
      exact ⟨hN, by simp [h]⟩

theorem kahnLoop_const_nil (g : String → List String) (hg : ∀ d, g d = []) :
    ∀ (fuel : Nat) (q : List String) (indeg : String → Int) (out : List String),
      q.length ≤ fuel →
      kahnLoop g fuel q indeg out = (out ++ sortQueue q, indeg) := by
  intro fuel
  induction fuel with
  | zero =>
    intro q indeg out hle
    have hq : q = [] := List.length_eq_zero.mp (by omega)
    subst hq
    rw [kahnLoop]
    simp [sortQueue, List.insertionSort]
  | succ fuel ih =>
    intro q indeg out hle
    cases hsq : sortQueue q with
    | nil =>
      have hq : q = [] := ((hsq ▸ sortQueue_perm q).symm).eq_nil
      subst hq
      rw [kahnLoop, hsq]
      simp [hsq]
    | cons current rest =>
      have hrel : relax (g current) rest indeg = (rest, indeg) := by
        rw [hg]
        rfl
      have hstep : kahnLoop g (fuel + 1) q indeg out =
          kahnLoop g fuel rest indeg (out ++ [current]) := by
        rw [kahnLoop, hsq]
        show kahnLoop g fuel (relax (g current) rest indeg).1
          (relax (g current) rest indeg).2 (out ++ [current]) = _
        rw [hrel]
      have hrest_len : rest.length ≤ fuel := by
        have hpl := (sortQueue_perm q).length_eq
        rw [hsq] at hpl
        simp at hpl
        omega
      have hrest_sorted : List.Sorted pyStrLeR rest := by
        have hs := sortQueue_sorted q
        rw [hsq] at hs
        exact (List.sorted_cons.mp hs).2
      rw [hstep, ih rest indeg (out ++ [current]) hrest_len,
        sortQueue_eq_of_sorted rest hrest_sorted]
      simp


theorem exists_cycle_of_all_have_pred (R : String → String → Prop) (S : List String)
    (hne : S ≠ []) (hpred : ∀ b ∈ S, ∃ a ∈ S, R a b) :
    ∃ n ∈ S, Relation.TransGen R n n := by
  classical
  set f : String → String := fun b =>
    if h : ∃ a ∈ S, R a b then h.choose else b with hf
  have hfmem : ∀ b ∈ S, f b ∈ S ∧ R (f b) b := by
    intro b hb
    have hex : ∃ a ∈ S, R a b := hpred b hb
    rw [hf]
    simp only [dif_pos hex]
    exact ⟨hex.choose_spec.1, hex.choose_spec.2⟩
  obtain ⟨s0, hs0⟩ := List.exists_mem_of_ne_nil S hne
  have hiter : ∀ k : Nat, f^[k] s0 ∈ S := by
    intro k
    induction k with
    | zero => exact hs0
    | succ k ihk =>
      rw [Function.iterate_succ_apply']
      exact (hfmem _ ihk).1
  have hchain : ∀ m : Nat, 1 ≤ m →
      ∀ k, Relation.TransGen R (f^[k + m] s0) (f^[k] s0) := by
    intro m
    induction m with
    | zero => omega
    | succ m ihm =>
      intro _ k
      have hstep : R (f^[k + 1] s0) (f^[k] s0) := by
        rw [Function.iterate_succ_apply']
        exact (hfmem _ (hiter k)).2
      by_cases hm : 1 ≤ m
      · have h1 := ihm hm (k + 1)
        rw [show k + (m + 1) = (k + 1) + m from by omega]
        exact Relation.TransGen.tail h1 hstep
      · have hm0 : m = 0 := by omega
        subst hm0
        exact Relation.TransGen.single hstep
  have hmaps : ∀ k ∈ Finset.range (S.toFinset.card + 1), f^[k] s0 ∈ S.toFinset :=
    fun k _ => List.mem_toFinset.mpr (hiter k)
  have hcard : S.toFinset.card < (Finset.range (S.toFinset.card + 1)).card := by
    simp
  obtain ⟨i, hi, j, hj, hij, hfij⟩ :=
    Finset.exists_ne_map_eq_of_card_lt_of_maps_to hcard hmaps
  rcases lt_or_gt_of_ne hij with hlt | hlt
  · refine ⟨f^[i] s0, hiter i, ?_⟩
    have hch := hchain (j - i) (by omega) i
    rw [show i + (j - i) = j from by omega] at hch
    rw [← hfij] at hch
    exact hch
  · refine ⟨f^[j] s0, hiter j, ?_⟩
    have hch := hchain (i - j) (by omega) j
    rw [show j + (i - j) = i from by omega] at hch
    rw [hfij] at hch
    exact hch

theorem pkgMap_self (records : List PackageRecord)
    (hnd : (recordNames records).Nodup) :
    ∀ p ∈ records, pkgMap records p.name = some p := by
  induction records with
  | nil => intro p hp; cases hp
  | cons q rs ih =>
    intro p hp
    have hnd2 : (q.name :: recordNames rs).Nodup := hnd
    have hqn : q.name ∉ recordNames rs := (List.nodup_cons.mp hnd2).1
    have hndt : (recordNames rs).Nodup := (List.nodup_cons.mp hnd2).2
    rcases List.mem_cons.mp hp with hp | hp
    · subst hp
      have hfil : rs.filter (fun x => x.name == p.name) = [] := by
        apply List.filter_eq_nil_iff.mpr
        intro x hx hbx
        exact hqn (eq_of_beq hbx ▸ List.mem_map.mpr ⟨x, hx, rfl⟩)
      rw [pkgMap, List.filter_cons, if_pos (by simp), hfil]
      rfl
    · have hpn : p.name ∈ recordNames rs := List.mem_map.mpr ⟨p, hp, rfl⟩
      have hne : ¬(q.name == p.name) = true := by
        simp only [beq_iff_eq]
        intro he
        exact hqn (he ▸ hpn)
      rw [pkgMap, List.filter_cons, if_neg hne]
      exact ih hndt p hp

theorem names_filterMap_pkgMap (records : List PackageRecord)
    (hnd : (recordNames records).Nodup) :
    (recordNames records).filterMap (pkgMap records) = records := by
  have hgen : ∀ rs : List PackageRecord,
      (∀ p ∈ rs, pkgMap records p.name = some p) →
      (rs.map PackageRecord.name).filterMap (pkgMap records) = rs := by
    intro rs
    induction rs with
    | nil => intro _; rfl
    | cons p ps ihp =>
      intro h
      rw [List.map_cons, List.filterMap_cons, h p (List.mem_cons_self p ps),
        ihp fun x hx => h x (List.mem_cons_of_mem p hx)]
  exact hgen records (pkgMap_self records hnd)

/-! ## Claim theorems: topological sort on acyclic inputs (C1) -/

/-- C1: on records with the data model's unique names and an acyclic
resolvable dependency graph, `topological_sort` succeeds with a
permutation of the input in which every resolvable dependency edge goes
strictly left to right; and when no record declares any dependency the
output names are in (strictly increasing) lexicographic order — which,
with the permutation clause, pins the output to exactly the records in
lexicographic name order. -/
theorem topological_sort_acyclic_correct (records : List PackageRecord)
    (hnd : (recordNames records).Nodup)
    (hacyc : ∀ n, ¬ Relation.TransGen (fun a b => (a, b) ∈ edges records) n n) :
    ∃ l, topological_sort records = .ok l ∧ l.Perm records ∧
      (∀ e ∈ edges records, ∀ (i j : Nat) (hi : i < l.length) (hj : j < l.length),
        (l.get ⟨i, hi⟩).name = e.1 → (l.get ⟨j, hj⟩).name = e.2 → i < j) ∧
      ((∀ p ∈ records, p.build_dependencies = []) →
        List.Sorted pyStrLeR (l.map PackageRecord.name)) := by
  obtain ⟨outF, indegF, hrun, ⟨suf, hsuf⟩, hKF⟩ :=
    kahnLoop_spec records (records.length + (edges records).length + 1)
      ((dictKeys records).filter fun n => initInDegree records n == 0)
      (initInDegree records) [] (kahn_init records)
      (by
        have : (recordNames records).length = records.length := List.length_map _ _
        omega)
  obtain ⟨hF1, hF2, _, _, hF5, hF6, hF7, hF8, hF9⟩ := hKF
  have hall : ∀ n ∈ recordNames records, n ∈ outF := by
    by_contra hno
    push_neg at hno
    obtain ⟨n0, hn0N, hn0F⟩ := hno
    have hSne : (recordNames records).filter (fun n => !decide (n ∈ outF)) ≠ [] := by
      intro hnil
      have hmem : n0 ∈ (recordNames records).filter (fun n => !decide (n ∈ outF)) :=
        List.mem_filter.mpr ⟨hn0N, by simp [hn0F]⟩
      rw [hnil] at hmem
      cases hmem
    have hpred : ∀ b ∈ (recordNames records).filter (fun n => !decide (n ∈ outF)),
        ∃ a ∈ (recordNames records).filter (fun n => !decide (n ∈ outF)),
          (a, b) ∈ edges records := by
      intro b hb
      obtain ⟨hbN, hbF⟩ := List.mem_filter.mp hb
      have hbF2 : b ∉ outF := by simpa using hbF
      have hne0 : indegF b ≠ 0 := by
        intro h0
        have hmem : b ∈ ([] : List String) := (hF6 b hbN hbF2).mpr h0
        cases hmem
      have h5 := hF5 b
      have hpos : 0 < unprocCount records outF b := by omega
      have hfne : (edges records).filter
          (fun e => e.2 == b && !decide (e.1 ∈ outF)) ≠ [] := by
        intro hnil
        rw [unprocCount, hnil] at hpos
        simp at hpos
      obtain ⟨e, he⟩ := List.exists_mem_of_ne_nil _ hfne
      obtain ⟨he1, he2⟩ := List.mem_filter.mp he
      have hb2 : (e.2 == b) = true ∧ (!decide (e.1 ∈ outF)) = true := by
        simpa using he2
      have he2b : e.2 = b := eq_of_beq hb2.1
      have he1out : e.1 ∉ outF := by simpa using hb2.2
      have he1N : e.1 ∈ recordNames records := (mem_edges records e he1).1
      refine ⟨e.1, List.mem_filter.mpr ⟨he1N, by simp [he1out]⟩, ?_⟩
      have hee : (e.1, e.2) ∈ edges records := by
        rw [Prod.mk.eta]
        exact he1
      rw [he2b] at hee
      exact hee
    obtain ⟨n, _, hcyc⟩ := exists_cycle_of_all_have_pred _ _ hSne hpred
    exact hacyc n hcyc
  have houtF_perm : outF.Perm (recordNames records) :=
    (List.perm_ext_iff_of_nodup hF1 hnd).mpr
      fun a => ⟨fun h => hF2 a h, fun h => hall a h⟩
  have hmapname : (outF.filterMap (pkgMap records)).map PackageRecord.name = outF := by
    rw [map_name_filterMap_pkgMap]
    exact List.filter_eq_self.mpr fun a ha => by simp [hF2 a ha]
  have hlperm : (outF.filterMap (pkgMap records)).Perm records := by
    have h1 : (outF.filterMap (pkgMap records)).Perm
        ((recordNames records).filterMap (pkgMap records)) :=
      houtF_perm.filterMap _
    rw [names_filterMap_pkgMap records hnd] at h1
    exact h1
  have hllen : (outF.filterMap (pkgMap records)).length = records.length :=
    hlperm.length_eq
  have hok : topological_sort records = .ok (outF.filterMap (pkgMap records)) := by
    rw [topological_sort, hrun]
    exact if_pos hllen
  refine ⟨outF.filterMap (pkgMap records), hok, hlperm, ?_, ?_⟩
  · intro e he i j hi hj hie hje
    rw [List.get_eq_getElem] at hie hje
    have hlen2 := congrArg List.length hmapname
    rw [List.length_map] at hlen2
    have hi2 : i < outF.length := by omega
    have hj2 : j < outF.length := by omega
    have houti : outF[i] = e.1 := by
      rw [List.getElem_of_eq hmapname.symm hi2, List.getElem_map]
      exact hie
    have houtj : outF[j] = e.2 := by
      rw [List.getElem_of_eq hmapname.symm hj2, List.getElem_map]
      exact hje
    rcases lt_trichotomy i j with hlt | heq | hgt
    · exact hlt
    · exfalso
      subst heq
      have h12 : e.1 = e.2 := houti.symm.trans houtj
      have hself : (e.2, e.2) ∉ edges records := by
        apply hF9
        rw [← houtj]
        exact List.getElem_mem hj2
      apply hself
      have hee : (e.1, e.2) ∈ edges records := by
        rw [Prod.mk.eta]
        exact he
      rw [h12] at hee
      exact hee
    · exfalso
      have hpair := List.pairwise_iff_getElem.mp hF8 j i hj2 hi2 hgt
      apply hpair
      rw [houti, houtj, Prod.mk.eta]
      exact he
  · intro hnodeps
    have hE : edges records = [] := by
      apply List.eq_nil_iff_forall_not_mem.mpr
      intro e he
      obtain ⟨p, hp, he2⟩ := List.mem_flatMap.mp he
      rw [hnodeps p hp] at he2
      simp at he2
    have hg : ∀ d, graphFn records d = [] := by
      intro d
      rw [graphFn, hE]
      rfl
    have hqueue0 : ((dictKeys records).filter fun n => initInDegree records n == 0) =
        dictKeys records := by
      apply List.filter_eq_self.mpr
      intro a _
      simp [initInDegree, hE]
    have hkeys : dictKeys records = recordNames records := dictKeys_eq_names records hnd
    have hconst := kahnLoop_const_nil (graphFn records) hg
      (records.length + (edges records).length + 1)
      (dictKeys records) (initInDegree records) []
      (by
        rw [hkeys]
        have : (recordNames records).length = records.length := List.length_map _ _
        omega)
    rw [hqueue0, hconst] at hrun
    have houtF : outF = sortQueue (dictKeys records) := by
      have := congrArg Prod.fst hrun
      simpa using this.symm
    rw [hmapname, houtF]
    exact sortQueue_sorted _

/-- C1 witness: three dependency-free records come back as a
lexicographically sorted permutation. -/
theorem topological_sort_acyclic_correct_witness :
    topological_sort [⟨"c", []⟩, ⟨"a", []⟩, ⟨"b", []⟩] =
      .ok [⟨"a", []⟩, ⟨"b", []⟩, ⟨"c", []⟩] ∧
    List.Perm [(⟨"a", []⟩ : PackageRecord), ⟨"b", []⟩, ⟨"c", []⟩]
      [⟨"c", []⟩, ⟨"a", []⟩, ⟨"b", []⟩] := by
  have hE : edges [⟨"c", []⟩, ⟨"a", []⟩, ⟨"b", []⟩] = [] := by decide
  obtain ⟨l, hok, hperm, _, _⟩ :=
    topological_sort_acyclic_correct [⟨"c", []⟩, ⟨"a", []⟩, ⟨"b", []⟩]
      (by decide)
      (by
        intro n hn
        have hgen : ∀ a b, ¬ Relation.TransGen
            (fun a b => (a, b) ∈ edges [⟨"c", []⟩, ⟨"a", []⟩, ⟨"b", []⟩]) a b := by
          intro a b h
          induction h with
          | single h2 => rw [hE] at h2; cases h2
          | tail _ h2 _ => rw [hE] at h2; cases h2
        exact hgen n n hn)
  have hval : topological_sort [⟨"c", []⟩, ⟨"a", []⟩, ⟨"b", []⟩] =
      .ok [⟨"a", []⟩, ⟨"b", []⟩, ⟨"c", []⟩] := by decide
  rw [hval] at hok
  injection hok with hok2
  refine ⟨hval, ?_⟩
  rw [← hok2] at hperm
  exact hperm

/-! ## Claim theorems: cycle detection (C3) -/

theorem exists_cycle_reaching (R : String → String → Prop) (S : List String)
    (n : String) (hn : n ∈ S) (hpred : ∀ b ∈ S, ∃ a ∈ S, R a b) :
    ∃ m ∈ S, Relation.TransGen R m m ∧ (m = n ∨ Relation.TransGen R m n) := by
  classical
  set f : String → String := fun b =>
    if h : ∃ a ∈ S, R a b then h.choose else b with hf
  have hfmem : ∀ b ∈ S, f b ∈ S ∧ R (f b) b := by
    intro b hb
    have hex : ∃ a ∈ S, R a b := hpred b hb
    rw [hf]
    simp only [dif_pos hex]
    exact ⟨hex.choose_spec.1, hex.choose_spec.2⟩
  have hiter : ∀ k : Nat, f^[k] n ∈ S := by
    intro k
    induction k with
    | zero => exact hn
    | succ k ihk =>
      rw [Function.iterate_succ_apply']
      exact (hfmem _ ihk).1
  have hchain : ∀ m : Nat, 1 ≤ m →
      ∀ k, Relation.TransGen R (f^[k + m] n) (f^[k] n) := by
    intro m
    induction m with
    | zero => omega
    | succ m ihm =>
      intro _ k
      have hstep : R (f^[k + 1] n) (f^[k] n) := by
        rw [Function.iterate_succ_apply']
        exact (hfmem _ (hiter k)).2
      by_cases hm : 1 ≤ m
      · have h1 := ihm hm (k + 1)
        rw [show k + (m + 1) = (k + 1) + m from by omega]
        exact Relation.TransGen.tail h1 hstep
      · have hm0 : m = 0 := by omega
        subst hm0
        exact Relation.TransGen.single hstep
  have hreach0 : ∀ i : Nat, 1 ≤ i → Relation.TransGen R (f^[i] n) n := by
    intro i hi
    have hch := hchain i hi 0
    rw [show 0 + i = i from by omega] at hch
    simpa using hch
  have hmaps : ∀ k ∈ Finset.range (S.toFinset.card + 1), f^[k] n ∈ S.toFinset :=
    fun k _ => List.mem_toFinset.mpr (hiter k)
  have hcard : S.toFinset.card < (Finset.range (S.toFinset.card + 1)).card := by
    simp
  obtain ⟨i, hi, j, hj, hij, hfij⟩ :=
    Finset.exists_ne_map_eq_of_card_lt_of_maps_to hcard hmaps
  rcases lt_or_gt_of_ne hij with hlt | hlt
  · refine ⟨f^[i] n, hiter i, ?_, ?_⟩
    · have hch := hchain (j - i) (by omega) i
      rw [show i + (j - i) = j from by omega] at hch
      rw [← hfij] at hch
      exact hch
    · by_cases hi0 : i = 0
      · left
        rw [hi0]
        rfl
      · right
        exact hreach0 i (by omega)
  · refine ⟨f^[j] n, hiter j, ?_, ?_⟩
    · have hch := hchain (i - j) (by omega) j
      rw [show j + (i - j) = i from by omega] at hch
      rw [hfij] at hch
      exact hch
    · by_cases hj0 : j = 0
      · left
        rw [hj0]
        rfl
      · right
        exact hreach0 j (by omega)

/-- C3: when the resolvable dependency graph has a cycle,
`topological_sort` exits fatally with an error instead of returning an
order, and the reported node list names exactly the nodes left
unordered: the record names that lie on a dependency cycle or strictly
downstream of one.  On the two-cycle `{a: [b], b: [a]}` the failure
names exactly `a` and `b`, and on `{a: [b], b: [a], c: [a]}` it also
names the cycle's dependent `c`. -/
theorem topological_sort_cycle_fails (records : List PackageRecord)
    (hcyc : ∃ n, Relation.TransGen (fun a b => (a, b) ∈ edges records) n n) :
    (∃ r, topological_sort records = .error r ∧ r ≠ [] ∧
      (∀ n, n ∈ r ↔ n ∈ recordNames records ∧
        ∃ m, Relation.TransGen (fun a b => (a, b) ∈ edges records) m m ∧
          (m = n ∨ Relation.TransGen (fun a b => (a, b) ∈ edges records) m n))) ∧
    topological_sort [⟨"a", ["b"]⟩, ⟨"b", ["a"]⟩] = .error ["a", "b"] ∧
    topological_sort [⟨"a", ["b"]⟩, ⟨"b", ["a"]⟩, ⟨"c", ["a"]⟩] =
      .error ["a", "b", "c"] := by
  refine ⟨?_, by decide, by decide⟩
  obtain ⟨outF, indegF, hrun, _, hKF⟩ :=
    kahnLoop_spec records (records.length + (edges records).length + 1)
      ((dictKeys records).filter fun n => initInDegree records n == 0)
      (initInDegree records) [] (kahn_init records)
      (by
        have : (recordNames records).length = records.length := List.length_map _ _
        omega)
  obtain ⟨hF1, hF2, _, _, hF5, hF6, hF7, hF8, hF9⟩ := hKF
  have hindexlt : ∀ x y, (x, y) ∈ edges records → x ∈ outF → y ∈ outF →
      outF.indexOf x < outF.indexOf y := by
    intro x y hxy hx hy
    have hxi : outF.indexOf x < outF.length := List.indexOf_lt_length.mpr hx
    have hyi : outF.indexOf y < outF.length := List.indexOf_lt_length.mpr hy
    have hgx : outF[outF.indexOf x] = x := List.getElem_indexOf hxi
    have hgy : outF[outF.indexOf y] = y := List.getElem_indexOf hyi
    have hne : x ≠ y := by
      intro hxyeq
      rw [hxyeq] at hxy
      exact hF9 y hy hxy
    rcases lt_trichotomy (outF.indexOf x) (outF.indexOf y) with h | h | h
    · exact h
    · exfalso
      apply hne
      have hgg : outF[outF.indexOf x] = outF[outF.indexOf y] := by
        congr 1
      rw [hgx, hgy] at hgg
      exact hgg
    · exfalso
      have hpair := List.pairwise_iff_getElem.mp hF8 _ _ hyi hxi h
      apply hpair
      rw [hgx, hgy]
      exact hxy
  have houtchain : ∀ x y, Relation.TransGen (fun a b => (a, b) ∈ edges records) x y →
      y ∈ outF → x ∈ outF ∧ outF.indexOf x < outF.indexOf y := by
    intro x y h
    induction h with
    | single hr =>
      intro hy
      have hx := hF7 _ hr hy
      exact ⟨hx, hindexlt _ _ hr hx hy⟩
    | tail ht hr ih =>
      intro hy
      have hb := hF7 _ hr hy
      obtain ⟨hx, hlt⟩ := ih hb
      exact ⟨hx, lt_trans hlt (hindexlt _ _ hr hb hy)⟩
  have hcyc_not : ∀ n, Relation.TransGen (fun a b => (a, b) ∈ edges records) n n →
      n ∉ outF := by
    intro n hn hmem
    obtain ⟨_, hlt⟩ := houtchain n n hn hmem
    exact absurd hlt (lt_irrefl _)
  have hcycN : ∀ n, Relation.TransGen (fun a b => (a, b) ∈ edges records) n n →
      n ∈ recordNames records := by
    intro n hn
    cases hn with
    | single hr => exact (mem_edges records _ hr).2
    | tail _ hr => exact (mem_edges records _ hr).2
  have hout0 : ∀ x ∈ outF, indegF x = 0 := by
    intro x hx
    have h5 := hF5 x
    have hcnt : unprocCount records outF x = 0 := by
      rw [unprocCount, List.length_eq_zero]
      apply List.filter_eq_nil_iff.mpr
      intro e he hp
      have hb : (e.2 == x) = true ∧ (!decide (e.1 ∈ outF)) = true := by
        simpa using hp
      have he2 : e.2 ∈ outF := by
        rw [eq_of_beq hb.1]
        exact hx
      have h1 : e.1 ∈ outF := hF7 e he he2
      have h1no : e.1 ∉ outF := by simpa using hb.2
      exact h1no h1
    omega
  have hpredS : ∀ b ∈ (recordNames records).filter (fun n => !decide (n ∈ outF)),
      ∃ a ∈ (recordNames records).filter (fun n => !decide (n ∈ outF)),
        (a, b) ∈ edges records := by
    intro b hb
    obtain ⟨hbN, hbF⟩ := List.mem_filter.mp hb
    have hbF2 : b ∉ outF := by simpa using hbF
    have hne0 : indegF b ≠ 0 := by
      intro h0
      have hmem : b ∈ ([] : List String) := (hF6 b hbN hbF2).mpr h0
      cases hmem
    have h5 := hF5 b
    have hpos : 0 < unprocCount records outF b := by omega
    have hfne : (edges records).filter
        (fun e => e.2 == b && !decide (e.1 ∈ outF)) ≠ [] := by
      intro hnil
      rw [unprocCount, hnil] at hpos
      simp at hpos
    obtain ⟨e, he⟩ := List.exists_mem_of_ne_nil _ hfne
    obtain ⟨he1, he2⟩ := List.mem_filter.mp he
    have hb2 : (e.2 == b) = true ∧ (!decide (e.1 ∈ outF)) = true := by
      simpa using he2
    have he2b : e.2 = b := eq_of_beq hb2.1
    have he1out : e.1 ∉ outF := by simpa using hb2.2
    have he1N : e.1 ∈ recordNames records := (mem_edges records e he1).1
    refine ⟨e.1, List.mem_filter.mpr ⟨he1N, by simp [he1out]⟩, ?_⟩
    have hee : (e.1, e.2) ∈ edges records := by
      rw [Prod.mk.eta]
      exact he1
    rw [he2b] at hee
    exact hee
  have hchar : ∀ n,
      (n ∈ (dictKeys records).filter fun n => decide (0 < indegF n)) ↔
      (n ∈ recordNames records ∧
        ∃ m, Relation.TransGen (fun a b => (a, b) ∈ edges records) m m ∧
          (m = n ∨ Relation.TransGen (fun a b => (a, b) ∈ edges records) m n)) := by
    intro n
    constructor
    · intro hn
      obtain ⟨hdk, hpos⟩ := List.mem_filter.mp hn
      have hN : n ∈ recordNames records := (mem_dictKeys records n).mp hdk
      have hpos2 : 0 < indegF n := by simpa using hpos
      have hnoutF : n ∉ outF := by
        intro hx
        rw [hout0 n hx] at hpos2
        exact lt_irrefl 0 hpos2
      have hnS : n ∈ (recordNames records).filter (fun n => !decide (n ∈ outF)) :=
        List.mem_filter.mpr ⟨hN, by simp [hnoutF]⟩
      obtain ⟨m, hmS, hcycm, hreach⟩ :=
        exists_cycle_reaching (fun a b => (a, b) ∈ edges records) _ n hnS hpredS
      exact ⟨hN, m, hcycm, hreach⟩
    · rintro ⟨hN, m, hcycm, hreach⟩
      have hmF : m ∉ outF := hcyc_not m hcycm
      have hnoutF : n ∉ outF := by
        rcases hreach with h | h
        · rw [← h]
          exact hmF
        · intro hx
          exact hmF (houtchain m n h hx).1
      have hne0 : indegF n ≠ 0 := by
        intro h0
        have hmem : n ∈ ([] : List String) := (hF6 n hN hnoutF).mpr h0
        cases hmem
      have h5 := hF5 n
      refine List.mem_filter.mpr ⟨(mem_dictKeys records n).mpr hN, ?_⟩
      simp only [decide_eq_true_eq]
      omega
  obtain ⟨n0, hn0⟩ := hcyc
  have hn0N := hcycN n0 hn0
  have hn0F := hcyc_not n0 hn0
  have hlength : (outF.filterMap (pkgMap records)).length ≠ records.length := by
    have hmapname : (outF.filterMap (pkgMap records)).map PackageRecord.name = outF := by
      rw [map_name_filterMap_pkgMap]
      exact List.filter_eq_self.mpr fun a ha => by simp [hF2 a ha]
    have hlen2 := congrArg List.length hmapname
    rw [List.length_map] at hlen2
    have hnd2 : (outF ++ [n0]).Nodup := by
      rw [List.nodup_append]
      exact ⟨hF1, List.nodup_singleton _,
        fun x hx hx0 => hn0F ((List.mem_singleton.mp hx0) ▸ hx)⟩
    have hsub : (outF ++ [n0]) ⊆ recordNames records := by
      intro x hx
      rcases List.mem_append.mp hx with hx | hx
      · exact hF2 x hx
      · rw [List.mem_singleton.mp hx]
        exact hn0N
    have hle := (List.subperm_of_subset hnd2 hsub).length_le
    have hnames_len : (recordNames records).length = records.length :=
      List.length_map _ _
    simp at hle
    omega
  refine ⟨(dictKeys records).filter fun n => decide (0 < indegF n), ?_, ?_, hchar⟩
  · rw [topological_sort, hrun]
    exact if_neg hlength
  · intro hnil
    have hm : n0 ∈ (dictKeys records).filter fun n => decide (0 < indegF n) :=
      (hchar n0).mpr ⟨hn0N, n0, hn0, Or.inl rfl⟩
    rw [hnil] at hm
    cases hm

/-- C3 witness: the two-cycle `{a: [b], b: [a]}` fails naming exactly `a`
and `b`, and with a dependent `c` added the failure names `a`, `b` and
`c`. -/
theorem topological_sort_cycle_fails_witness :
    topological_sort [⟨"a", ["b"]⟩, ⟨"b", ["a"]⟩] = .error ["a", "b"] ∧
    topological_sort [⟨"a", ["b"]⟩, ⟨"b", ["a"]⟩, ⟨"c", ["a"]⟩] =
      .error ["a", "b", "c"] :=
  (topological_sort_cycle_fails [⟨"a", ["b"]⟩, ⟨"b", ["a"]⟩]
    ⟨"a", Relation.TransGen.tail
      (Relation.TransGen.single
        (show ("a", "b") ∈ edges [⟨"a", ["b"]⟩, ⟨"b", ["a"]⟩] by decide))
      (show ("b", "a") ∈ edges [⟨"a", ["b"]⟩, ⟨"b", ["a"]⟩] by decide)⟩).2

end PlatformWheels













